import Mathlib

/-!
# kvcache: LRU cache with per-key TTL (`lru/lru_ttl.go`)

A shallow embedding of `LruWithTTL`: the bounded LRU store it embeds, the
schedule map, the expiry goroutines spawned by `AddWithTTL` together with
their deferred calls, and two interleaving models of the concurrent
behaviour (one where every public call is atomic, one at the level of the
individual `scheduleMutex` operations).
-/

set_option autoImplicit false
set_option linter.unusedSectionVars false

namespace hlru

/-- Modelled from the spec: the bounded store `hlru.Cache` of the imported
package `github.com/hashicorp/golang-lru` is not part of this repository.
`items` is the recency list (most recently used entry first), `size` the
capacity, `hasOnEvict` tells whether an eviction callback was configured and
`evictLog` records the callback invocations, most recent first. -/
structure Cache (K V : Type) where
  size : Int
  items : List (K × V)
  hasOnEvict : Bool
  evictLog : List (K × V)
deriving DecidableEq

variable {K V : Type} [DecidableEq K]

/-- Modelled from the spec: `hlru.NewWithEvict`, which requires `size > 0` and
fails otherwise. The result is the Go pair (cache, error). -/
def NewWithEvict (size : Int) (onEvicted : Bool) : Option (Cache K V) × Option String :=
  if size ≤ 0 then
    (none, some "Must provide a positive size")
  else
    (some { size := size, items := [], hasOnEvict := onEvicted, evictLog := [] }, none)

/-- Modelled from the spec: `Cache.Len`, the number of entries held. -/
def Cache.Len (c : Cache K V) : Int := c.items.length

/-- Modelled from the spec: `Cache.Contains`, a lookup that does not touch recency. -/
def Cache.Contains (c : Cache K V) (key : K) : Bool :=
  c.items.any (fun e => decide (e.1 = key))

/-- Modelled from the spec: `Cache.Peek`, the value of a key without marking recency. -/
def Cache.Peek (c : Cache K V) (key : K) : Option V :=
  (c.items.find? (fun e => decide (e.1 = key))).map Prod.snd

/-- Modelled from the spec: the synchronous eviction callback, invoked with the
entry that leaves the store when a callback is configured. -/
def Cache.onEvict (c : Cache K V) (e : K × V) : Cache K V :=
  if c.hasOnEvict then { c with evictLog := e :: c.evictLog } else c

/-- Modelled from the spec: `Cache.Get`, returning the current value and marking
the entry as most recently used; it never removes. -/
def Cache.Get (c : Cache K V) (key : K) : Option V × Cache K V :=
  match c.items.find? (fun e => decide (e.1 = key)) with
  | some e => (some e.2, { c with items := e :: c.items.filter (fun x => !decide (x.1 = key)) })
  | none => (none, c)

/-- Modelled from the spec: `Cache.Remove`, removing the key if present and
invoking the eviction callback with the removed entry; the result tells whether
a removal happened. -/
def Cache.Remove (c : Cache K V) (key : K) : Bool × Cache K V :=
  match c.items.find? (fun e => decide (e.1 = key)) with
  | some e =>
    (true, ({ c with items := c.items.filter (fun x => !decide (x.1 = key)) }).onEvict e)
  | none => (false, c)

/-- Modelled from the spec: capacity eviction, which drops the least recently
used entry (the last of the recency list) and reports it to the callback. -/
def Cache.removeOldest (c : Cache K V) : Cache K V :=
  match c.items.getLast? with
  | some e => ({ c with items := c.items.dropLast }).onEvict e
  | none => c

/-- Modelled from the spec: `Cache.Add`, which inserts or updates, moves the
entry to the front of the recency list in both cases, and returns whether an
existing entry was evicted to make room. -/
def Cache.Add (c : Cache K V) (key : K) (value : V) : Bool × Cache K V :=
  if c.Contains key then
    (false, { c with items := (key, value) :: c.items.filter (fun x => !decide (x.1 = key)) })
  else
    let c1 : Cache K V := { c with items := (key, value) :: c.items }
    if c1.Len > c.size then (true, c1.removeOldest) else (false, c1)

end hlru

namespace lru

open hlru

/-- The fields of `LruWithTTL` that carry data: the embedded `hlru.Cache` and the
`schedule` map, represented by the list of keys it maps to `true`. -/
structure LruWithTTL (K V : Type) where
  Cache : hlru.Cache K V
  schedule : List K
deriving DecidableEq

/-- The two calls deferred by the expiry goroutine of `AddWithTTL`. -/
inductive Deferred where
  | Remove
  | clearSchedule
deriving DecidableEq

/-- An expiry goroutine: the key it captured, the earliest instant at which its
`time.Sleep(ttl)` has returned, and its stack of deferred calls; the head of the
stack is the call deferred last, which Go runs first when the function returns. -/
structure Timer (K : Type) where
  key : K
  wake : Nat
  deferred : List Deferred
deriving DecidableEq

/-- The cache together with the goroutines spawned so far and a logical clock. -/
structure Sys (K V : Type) where
  lru : LruWithTTL K V
  timers : List (Timer K)
  now : Nat
deriving DecidableEq

variable {K V : Type} [DecidableEq K]

/-- `NewTTLWithEvict`: the Go pair (cache, error). -/
def NewTTLWithEvict (size : Int) (onEvicted : Bool) : Option (LruWithTTL K V) × Option String :=
  if size ≤ 0 then
    (none, some "Must provide a positive size")
  else
    let r : Option (hlru.Cache K V) × Option String := hlru.NewWithEvict size onEvicted
    match r.2 with
    | some err => (none, some err)
    | none => (r.1.map (fun c => { Cache := c, schedule := [] }), none)

/-- `NewTTL`: construction without an eviction callback. -/
def NewTTL (size : Int) : Option (LruWithTTL K V) × Option String :=
  NewTTLWithEvict size false

/-- `clearSchedule`: `delete(lru.schedule, key)`. -/
def clearSchedule (l : LruWithTTL K V) (key : K) : LruWithTTL K V :=
  { l with schedule := l.schedule.filter (fun x => !decide (x = key)) }

/-- The goroutine started by `AddWithTTL`: it defers `lru.Cache.Remove(key)`, then
defers `lru.clearSchedule(key)`, then sleeps for `ttl` (a non-positive duration
returns at once). -/
def expiryTimer (key : K) (now : Nat) (ttl : Int) : Timer K :=
  let d0 : List Deferred := []
  let d1 := Deferred.Remove :: d0
  let d2 := Deferred.clearSchedule :: d1
  { key := key, wake := now + ttl.toNat, deferred := d2 }

/-- The part of `AddWithTTL` that precedes `Cache.Add`: test `lru.schedule[key]`
and, when it is not set, set it and start the expiry goroutine. -/
def arm (s : Sys K V) (key : K) (ttl : Int) : Sys K V :=
  if s.lru.schedule.contains key then
    s
  else
    { s with
      lru := { s.lru with schedule := key :: s.lru.schedule }
      timers := s.timers ++ [expiryTimer key s.now ttl] }

/-- `AddWithTTL`, run without interruption: the schedule handling followed by
`return lru.Cache.Add(key, value)`. -/
def AddWithTTL (s : Sys K V) (key : K) (value : V) (ttl : Int) : Bool × Sys K V :=
  let s1 := arm s key ttl
  let r := s1.lru.Cache.Add key value
  (r.1, { s1 with lru := { s1.lru with Cache := r.2 } })

/-- Run one deferred call of a goroutine against the cache. -/
def runDeferred (d : Deferred) (l : LruWithTTL K V) (key : K) : LruWithTTL K V :=
  match d with
  | Deferred.clearSchedule => clearSchedule l key
  | Deferred.Remove => { l with Cache := (l.Cache.Remove key).2 }

/-- The atomic steps of the system: the public calls, the passing of time, and
the next deferred call of goroutine number `i`. -/
inductive Action (K V : Type) where
  | Add (key : K) (value : V)
  | Get (key : K)
  | Remove (key : K)
  | AddWithTTL (key : K) (value : V) (ttl : Int)
  | tick (d : Nat)
  | timer (i : Nat)

/-- One step; `none` when the step is not enabled (unknown goroutine, goroutine
still asleep, or goroutine already finished). -/
def step (s : Sys K V) : Action K V → Option (Sys K V)
  | Action.Add key value =>
    some { s with lru := { s.lru with Cache := (s.lru.Cache.Add key value).2 } }
  | Action.Get key =>
    some { s with lru := { s.lru with Cache := (s.lru.Cache.Get key).2 } }
  | Action.Remove key =>
    some { s with lru := { s.lru with Cache := (s.lru.Cache.Remove key).2 } }
  | Action.AddWithTTL key value ttl => some (AddWithTTL s key value ttl).2
  | Action.tick d => some { s with now := s.now + d }
  | Action.timer i =>
    match s.timers[i]? with
    | none => none
    | some t =>
      if s.now < t.wake then none
      else
        match t.deferred with
        | [] => none
        | d :: rest =>
          some { s with
            lru := runDeferred d s.lru t.key
            timers := s.timers.set i { t with deferred := rest } }

/-- Run a schedule of steps from a state. -/
def run (s : Sys K V) : List (Action K V) → Option (Sys K V)
  | [] => some s
  | a :: rest => (step s a).bind (fun s1 => run s1 rest)

/-- The initial system around a freshly constructed cache. -/
def Sys.init (l : LruWithTTL K V) : Sys K V :=
  { lru := l, timers := [], now := 0 }

/-- Whether an action works on key `k`: a public call on `k`, or a step of a
goroutine that captured `k`. -/
def Action.touches (s : Sys K V) (k : K) : Action K V → Bool
  | Action.Add key _ => decide (key = k)
  | Action.Get key => decide (key = k)
  | Action.Remove key => decide (key = k)
  | Action.AddWithTTL key _ _ => decide (key = k)
  | Action.tick _ => false
  | Action.timer i =>
    match s.timers[i]? with
    | some t => decide (t.key = k)
    | none => false

/-- No step of the schedule, run from `s`, works on key `k`. -/
def quiet (k : K) : Sys K V → List (Action K V) → Bool
  | _, [] => true
  | s, a :: rest =>
    !(a.touches s k) &&
      (match step s a with
       | some s1 => quiet k s1 rest
       | none => true)

/-- A goroutine that has run its `clearSchedule`. -/
def Timer.cleared {K : Type} (t : Timer K) : Bool := !(t.deferred.contains Deferred.clearSchedule)

/-- A goroutine that has run its `Cache.Remove`. -/
def Timer.removed {K : Type} (t : Timer K) : Bool := !(t.deferred.contains Deferred.Remove)

/-- A goroutine that has been spawned and still has a deferred call to run. -/
def Timer.unfinished {K : Type} (t : Timer K) : Bool := !t.deferred.isEmpty

/-- Every goroutine is at one of the three points of its life: both deferred
calls outstanding, only `Cache.Remove` outstanding, or finished. -/
def TimersOK (s : Sys K V) : Prop :=
  ∀ t ∈ s.timers, t.deferred = [Deferred.clearSchedule, Deferred.Remove] ∨
    t.deferred = [Deferred.Remove] ∨ t.deferred = []

/-- A goroutine for key `k` that has not yet run its `clearSchedule`. -/
def pendingFor (k : K) (t : Timer K) : Bool := decide (t.key = k) && !t.cleared

/-- The schedule map and the goroutines agree: a key is marked at most once, and
it is marked exactly when one goroutine for it still has to clear the mark. -/
def ScheduleOK (s : Sys K V) : Prop :=
  ∀ k, List.countP (pendingFor k) s.timers = s.lru.schedule.count k ∧
    s.lru.schedule.count k ≤ 1

/-- The step `a`, run from `s`, takes out of the store a key that is marked
pending in `s`: a capacity eviction or a removal (by a caller or by a goroutine)
of such a key. -/
def dropsPending (s : Sys K V) (a : Action K V) : Bool :=
  match step s a with
  | some s1 =>
    s.lru.schedule.any (fun k => s.lru.Cache.Contains k && !s1.lru.Cache.Contains k)
  | none => false

/-- No step of the schedule, run from `s`, takes a pending key out of the store. -/
def noPendingDrop : Sys K V → List (Action K V) → Bool
  | _, [] => true
  | s, a :: rest =>
    !(dropsPending s a) &&
      (match step s a with
       | some s1 => noPendingDrop s1 rest
       | none => true)

/-- The entries of the store held under key `k`. -/
def keyItems (k : K) (c : hlru.Cache K V) : List (K × V) :=
  c.items.filter (fun e => decide (e.1 = k))

/-- The callback invocations made for key `k`, most recent first. -/
def keyLog (k : K) (c : hlru.Cache K V) : List (K × V) :=
  c.evictLog.filter (fun e => decide (e.1 = k))

/-- Since the callback log for `k` read `base`, either `k` is in the store with
value `v` and no callback ran for `k`, or `k` has left the store and the
callback (when configured) ran for `k` exactly once, with `(k, v)`. -/
def Tracked (k : K) (v : V) (base : List (K × V)) (c : hlru.Cache K V) : Prop :=
  (keyItems k c = [(k, v)] ∧ (c.hasOnEvict = true → keyLog k c = base)) ∨
  (keyItems k c = [] ∧ (c.hasOnEvict = true → keyLog k c = (k, v) :: base))

/-! ## Lock-level model

`AddWithTTL` and the expiry goroutine are split at every operation on
`scheduleMutex`; the store operations stay atomic (the store has its own lock).
-/

/-- The instructions a thread runs one at a time. -/
inductive Instr (V : Type) where
  | lock
  | unlock
  | delete
  | arm (ttl : Int)
  | cacheAdd (value : V)
  | cacheRemove
deriving DecidableEq

/-- The body of `AddWithTTL`: `Lock`, `defer Unlock`, the schedule handling,
`return lru.Cache.Add(key, value)`, and the deferred `Unlock` on return. -/
def addWithTTLCode (value : V) (ttl : Int) : List (Instr V) :=
  [Instr.lock, Instr.arm ttl, Instr.cacheAdd value] ++ [Instr.unlock]

/-- The body of `clearSchedule`: `Lock`, `defer Unlock`, `delete`, and the deferred
`Unlock` on return. -/
def clearScheduleCode : List (Instr V) :=
  [Instr.lock, Instr.delete] ++ [Instr.unlock]

/-- The instructions of one deferred call of the expiry goroutine. -/
def deferredCode : Deferred → List (Instr V)
  | Deferred.clearSchedule => clearScheduleCode
  | Deferred.Remove => [Instr.cacheRemove]

/-- What the expiry goroutine runs once its sleep is over: its deferred calls,
taken from the top of the stack. -/
def goroutineCode (key : K) (now : Nat) (ttl : Int) : List (Instr V) :=
  ((expiryTimer key now ttl).deferred.map deferredCode).flatten

/-- A thread: an `AddWithTTL` call (`parent = none`) or an expiry goroutine
(`parent` is the number of the call that started it), with the instructions it
runs and the number of them it has run so far. -/
structure Thread (K V : Type) where
  key : K
  parent : Option Nat
  wake : Nat
  prog : List (Instr V)
  pc : Nat
deriving DecidableEq

/-- The lock-level state: cache, holder of `scheduleMutex`, threads and clock. -/
structure Fine (K V : Type) where
  lru : LruWithTTL K V
  mutex : Option Nat
  threads : List (Thread K V)
  now : Nat
deriving DecidableEq

/-- The steps of the lock-level model: a caller enters `AddWithTTL`, a thread runs
its next instruction, time passes, or a caller runs a plain store operation. -/
inductive FAction (K V : Type) where
  | call (key : K) (value : V) (ttl : Int)
  | thread (i : Nat)
  | tick (d : Nat)
  | Add (key : K) (value : V)
  | Get (key : K)
  | Remove (key : K)

/-- Move thread `i` past the instruction it has just run. -/
def Fine.advance (s : Fine K V) (i : Nat) (t : Thread K V) : List (Thread K V) :=
  s.threads.set i { t with pc := t.pc + 1 }

/-- One instruction of thread `i`; `none` when it cannot run: `Lock` blocks while
the mutex is held. -/
def Fine.exec (s : Fine K V) (i : Nat) (t : Thread K V) : Instr V → Option (Fine K V)
  | Instr.lock =>
    match s.mutex with
    | none => some { s with mutex := some i, threads := s.advance i t }
    | some _ => none
  | Instr.unlock =>
    if s.mutex = some i then some { s with mutex := none, threads := s.advance i t }
    else none
  | Instr.delete =>
    some { s with lru := clearSchedule s.lru t.key, threads := s.advance i t }
  | Instr.arm ttl =>
    if s.lru.schedule.contains t.key then
      some { s with threads := s.advance i t }
    else
      some { s with
        lru := { s.lru with schedule := t.key :: s.lru.schedule }
        threads := s.advance i t ++
          [{ key := t.key, parent := some i, wake := s.now + ttl.toNat,
             prog := goroutineCode t.key s.now ttl, pc := 0 }] }
  | Instr.cacheAdd value =>
    some { s with
      lru := { s.lru with Cache := (s.lru.Cache.Add t.key value).2 }
      threads := s.advance i t }
  | Instr.cacheRemove =>
    some { s with
      lru := { s.lru with Cache := (s.lru.Cache.Remove t.key).2 }
      threads := s.advance i t }

/-- One step of the lock-level model; a thread step is not enabled when the thread
does not exist, is still asleep, has finished, or is blocked on the mutex. -/
def Fine.step (s : Fine K V) : FAction K V → Option (Fine K V)
  | FAction.call key value ttl =>
    some { s with
      threads := s.threads ++
        [{ key := key, parent := none, wake := 0, prog := addWithTTLCode value ttl, pc := 0 }] }
  | FAction.thread i =>
    match s.threads[i]? with
    | none => none
    | some t =>
      if s.now < t.wake then none
      else
        match t.prog[t.pc]? with
        | none => none
        | some ins => s.exec i t ins
  | FAction.tick d => some { s with now := s.now + d }
  | FAction.Add key value =>
    some { s with lru := { s.lru with Cache := (s.lru.Cache.Add key value).2 } }
  | FAction.Get key =>
    some { s with lru := { s.lru with Cache := (s.lru.Cache.Get key).2 } }
  | FAction.Remove key =>
    some { s with lru := { s.lru with Cache := (s.lru.Cache.Remove key).2 } }

/-- Run a schedule of lock-level steps. -/
def Fine.run (s : Fine K V) : List (FAction K V) → Option (Fine K V)
  | [] => some s
  | a :: rest => (s.step a).bind (fun s1 => s1.run rest)

/-- The initial lock-level state around a freshly constructed cache. -/
def Fine.init (l : LruWithTTL K V) : Fine K V :=
  { lru := l, mutex := none, threads := [], now := 0 }

/-- The instructions the thread has run so far. -/
def Thread.past {K V : Type} (t : Thread K V) : List (Instr V) := t.prog.take t.pc

/-- The thread has run its `Cache.Remove`. -/
def Thread.removeDone {K V : Type} (t : Thread K V) : Bool :=
  t.past.any (fun ins => match ins with | Instr.cacheRemove => true | _ => false)

/-- The thread has run its `Cache.Add`. -/
def Thread.addDone {K V : Type} (t : Thread K V) : Bool :=
  t.past.any (fun ins => match ins with | Instr.cacheAdd _ => true | _ => false)

/-- The thread has acquired `scheduleMutex` at least once. -/
def Thread.lockDone {K V : Type} (t : Thread K V) : Bool :=
  t.past.any (fun ins => match ins with | Instr.lock => true | _ => false)

/-- The thread has run all its instructions. -/
def Thread.finished {K V : Type} (t : Thread K V) : Bool := decide (t.prog.length ≤ t.pc)

/-- The thread is between a `Lock` and the matching `Unlock`: positions 1 to 3 of
an `AddWithTTL` call, positions 1 and 2 of an expiry goroutine. -/
def Thread.inCritical {K V : Type} (t : Thread K V) : Prop :=
  1 ≤ t.pc ∧ t.pc ≤ (if t.parent = none then 3 else 2)

/-- The invariant of the lock-level model: every thread runs one of the two
programs, the mutex is held exactly by the thread inside its critical section,
and a goroutine's parent call has passed its schedule handling and has
returned once the goroutine holds or has held the mutex. -/
structure FineInv (s : Fine K V) : Prop where
  shape : ∀ (j : Nat) (t : Thread K V), s.threads[j]? = some t →
    t.pc ≤ 4 ∧
    ((t.parent = none ∧ ∃ v ttl,
        t.prog = [Instr.lock, Instr.arm ttl, Instr.cacheAdd v, Instr.unlock]) ∨
     (t.parent ≠ none ∧
        t.prog = [Instr.lock, Instr.delete, Instr.unlock, Instr.cacheRemove]))
  mutexOK : ∀ (j : Nat) (t : Thread K V), s.threads[j]? = some t →
    (s.mutex = some j ↔ t.inCritical)
  mutexLt : ∀ k, s.mutex = some k → k < s.threads.length
  link : ∀ (j : Nat) (t : Thread K V) (p : Nat), s.threads[j]? = some t → t.parent = some p →
    ∃ c, s.threads[p]? = some c ∧ c.parent = none ∧ c.key = t.key ∧ 2 ≤ c.pc ∧
      (1 ≤ t.pc → c.pc = 4)

end lru

open lru hlru

section StoreLemmas

variable {K V : Type} [DecidableEq K]

theorem hlru.Cache.onEvict_items (c : Cache K V) (e : K × V) : (c.onEvict e).items = c.items := by
  unfold Cache.onEvict
  split <;> rfl

theorem hlru.Cache.onEvict_size (c : Cache K V) (e : K × V) : (c.onEvict e).size = c.size := by
  unfold Cache.onEvict
  split <;> rfl

theorem hlru.Cache.onEvict_hasOnEvict (c : Cache K V) (e : K × V) :
    (c.onEvict e).hasOnEvict = c.hasOnEvict := by
  unfold Cache.onEvict
  split <;> rfl

theorem hlru.Cache.removeOldest_items (c : Cache K V) :
    c.removeOldest.items = c.items.dropLast := by
  unfold Cache.removeOldest
  split
  · simp [Cache.onEvict_items]
  · rename_i h
    have := List.getLast?_eq_none_iff.mp h
    simp [this]

theorem hlru.Cache.Add_size (c : Cache K V) (k : K) (v : V) : (c.Add k v).2.size = c.size := by
  unfold Cache.Add Cache.removeOldest
  split
  · rfl
  · dsimp only
    split
    · split
      · simp [Cache.onEvict_size]
      · rfl
    · rfl

theorem hlru.Cache.Get_size (c : Cache K V) (k : K) : (c.Get k).2.size = c.size := by
  unfold Cache.Get
  split <;> rfl

theorem hlru.Cache.Remove_size (c : Cache K V) (k : K) : (c.Remove k).2.size = c.size := by
  unfold Cache.Remove
  split
  · simp [Cache.onEvict_size]
  · rfl

theorem filter_ne_length_lt (items : List (K × V)) (k : K)
    (h : items.any (fun e => decide (e.1 = k)) = true) :
    (items.filter (fun x => !decide (x.1 = k))).length < items.length := by
  induction items with
  | nil => simp at h
  | cons a rest ih =>
    by_cases hk : a.1 = k
    · have := List.length_filter_le (fun x : K × V => !decide (x.1 = k)) rest
      simp [List.filter_cons, hk]
      omega
    · have hr : rest.any (fun e => decide (e.1 = k)) = true := by
        simpa [List.any_cons, hk] using h
      have := ih hr
      simp [List.filter_cons, hk]
      omega

theorem hlru.Cache.Add_Len_le (c : Cache K V) (k : K) (v : V) (h : c.Len ≤ c.size) :
    (c.Add k v).2.Len ≤ c.size := by
  unfold Cache.Len at h
  unfold Cache.Add
  split
  · rename_i hc
    have := filter_ne_length_lt c.items k hc
    simp only [Cache.Len, List.length_cons]
    omega
  · dsimp only
    split
    · simp only [Cache.removeOldest, List.getLast?_cons_cons, Cache.Len]
      split
      · simp only [Cache.onEvict_items, List.length_dropLast, List.length_cons]
        omega
      · rename_i hl
        simp at hl
    · rename_i hgt
      simpa [Cache.Len] using hgt

theorem hlru.Cache.Get_Len_le (c : Cache K V) (k : K) (h : c.Len ≤ c.size) :
    (c.Get k).2.Len ≤ c.size := by
  unfold Cache.Len at h
  unfold Cache.Get
  split
  · rename_i e he
    have hc : c.items.any (fun e => decide (e.1 = k)) = true := by
      have hm := List.mem_of_find?_eq_some he
      have hp := List.find?_some he
      exact List.any_eq_true.mpr ⟨e, hm, hp⟩
    have := filter_ne_length_lt c.items k hc
    simp only [Cache.Len, List.length_cons]
    omega
  · exact h

theorem hlru.Cache.Remove_Len_le (c : Cache K V) (k : K) (h : c.Len ≤ c.size) :
    (c.Remove k).2.Len ≤ c.size := by
  unfold Cache.Len at h
  unfold Cache.Remove
  split
  · have := List.length_filter_le (fun x : K × V => !decide (x.1 = k)) c.items
    simp only [Cache.Len, Cache.onEvict_items]
    omega
  · exact h

end StoreLemmas

section Construction

variable {K V : Type} [DecidableEq K]

theorem new_schedule_nil (n : Int) (onEvicted : Bool) (l : LruWithTTL K V)
    (hnew : NewTTLWithEvict n onEvicted = (some l, none)) :
    l.schedule = [] ∧ l.Cache.items = [] ∧ l.Cache.size = n ∧ 0 < n := by
  by_cases hn : n ≤ 0
  · simp [NewTTLWithEvict, hn] at hnew
  · simp only [NewTTLWithEvict, hn, hlru.NewWithEvict, if_false, Option.map_some',
      Prod.mk.injEq, Option.some.injEq, and_true] at hnew
    subst hnew
    exact ⟨rfl, rfl, rfl, by omega⟩

/-- C6: `NewTTLWithEvict size onEvicted` returns a non-nil error together with a
nil cache exactly when `size ≤ 0`; for `size > 0` it returns a nil error and a
cache of length 0 with an empty schedule map; `NewTTL size` is
`NewTTLWithEvict size nil`. -/
theorem NewTTLWithEvict_construction (size : Int) (onEvicted : Bool) :
    ((((NewTTLWithEvict size onEvicted : Option (LruWithTTL K V) × Option String).2 ≠ none) ∧
        ((NewTTLWithEvict size onEvicted : Option (LruWithTTL K V) × Option String).1 = none))
      ↔ size ≤ 0) ∧
    (0 < size → ∃ l : LruWithTTL K V,
        NewTTLWithEvict size onEvicted = (some l, none) ∧ l.Cache.Len = 0 ∧ l.schedule = [] ∧
        l.Cache.size = size ∧ l.Cache.hasOnEvict = onEvicted) ∧
    ((NewTTL size : Option (LruWithTTL K V) × Option String) = NewTTLWithEvict size false) := by
  refine ⟨?_, ?_, rfl⟩
  · by_cases h : size ≤ 0
    · simp [NewTTLWithEvict, h]
    · simp [NewTTLWithEvict, hlru.NewWithEvict, h]
  · intro h
    have h0 : ¬ size ≤ 0 := by omega
    refine ⟨{ Cache := { size := size, items := [], hasOnEvict := onEvicted, evictLog := [] },
              schedule := [] }, ?_, rfl, rfl, rfl, rfl⟩
    simp [NewTTLWithEvict, hlru.NewWithEvict, h0]

/-- Witness for C6 at size 2 (accepted) and size 0 (refused). -/
theorem NewTTLWithEvict_construction_witness :
    (∃ l : LruWithTTL String Int,
        NewTTLWithEvict 2 true = (some l, none) ∧ l.Cache.Len = 0 ∧ l.schedule = [] ∧
        l.Cache.size = 2 ∧ l.Cache.hasOnEvict = true) ∧
    (NewTTLWithEvict 0 true : Option (LruWithTTL String Int) × Option String).1 = none :=
  ⟨(NewTTLWithEvict_construction 2 true).2.1 (by decide),
   (((NewTTLWithEvict_construction 0 true).1).mpr (by decide)).2⟩

theorem AddWithTTL_Cache (s : Sys K V) (key : K) (value : V) (ttl : Int) :
    (AddWithTTL s key value ttl).2.lru.Cache = (s.lru.Cache.Add key value).2 := by
  unfold AddWithTTL arm
  split <;> rfl

/-- C3: `AddWithTTL key value ttl` returns the boolean `Cache.Add key value`
returns on the same store and leaves the store (entries, recency order, callback
log) exactly as `Cache.Add key value` leaves it, whether or not the key is
pending. -/
theorem AddWithTTL_write_through (s : Sys K V) (key : K) (value : V) (ttl : Int) :
    (AddWithTTL s key value ttl).1 = (s.lru.Cache.Add key value).1 ∧
    (AddWithTTL s key value ttl).2.lru.Cache = (s.lru.Cache.Add key value).2 := by
  unfold AddWithTTL arm
  split <;> exact ⟨rfl, rfl⟩

end Construction

section Capacity

variable {K V : Type} [DecidableEq K]

theorem runDeferred_size (d : Deferred) (l : LruWithTTL K V) (k : K) :
    (runDeferred d l k).Cache.size = l.Cache.size := by
  cases d
  · simp [runDeferred, Cache.Remove_size]
  · rfl

theorem runDeferred_Len_le (d : Deferred) (l : LruWithTTL K V) (k : K)
    (h : l.Cache.Len ≤ l.Cache.size) : (runDeferred d l k).Cache.Len ≤ l.Cache.size := by
  cases d
  · exact Cache.Remove_Len_le _ _ h
  · exact h

theorem step_capacity (s s1 : Sys K V) (a : Action K V) (hs : step s a = some s1)
    (h : s.lru.Cache.Len ≤ s.lru.Cache.size) :
    s1.lru.Cache.size = s.lru.Cache.size ∧ s1.lru.Cache.Len ≤ s.lru.Cache.size := by
  cases a with
  | Add key value =>
    simp only [step, Option.some.injEq] at hs
    subst hs
    exact ⟨Cache.Add_size _ _ _, Cache.Add_Len_le _ _ _ h⟩
  | Get key =>
    simp only [step, Option.some.injEq] at hs
    subst hs
    exact ⟨Cache.Get_size _ _, Cache.Get_Len_le _ _ h⟩
  | Remove key =>
    simp only [step, Option.some.injEq] at hs
    subst hs
    exact ⟨Cache.Remove_size _ _, Cache.Remove_Len_le _ _ h⟩
  | AddWithTTL key value ttl =>
    simp only [step, Option.some.injEq] at hs
    subst hs
    rw [AddWithTTL_Cache s key value ttl]
    exact ⟨Cache.Add_size _ _ _, Cache.Add_Len_le _ _ _ h⟩
  | tick d =>
    simp only [step, Option.some.injEq] at hs
    subst hs
    exact ⟨rfl, h⟩
  | timer i =>
    simp only [step] at hs
    split at hs
    · simp at hs
    · split at hs
      · simp at hs
      · split at hs
        · simp at hs
        · simp only [Option.some.injEq] at hs
          subst hs
          exact ⟨runDeferred_size _ _ _, runDeferred_Len_le _ _ _ h⟩

theorem run_capacity (acts : List (Action K V)) (s s1 : Sys K V) (hs : run s acts = some s1)
    (h : s.lru.Cache.Len ≤ s.lru.Cache.size) :
    s1.lru.Cache.size = s.lru.Cache.size ∧ s1.lru.Cache.Len ≤ s.lru.Cache.size := by
  induction acts generalizing s with
  | nil =>
    simp only [run, Option.some.injEq] at hs
    subst hs
    exact ⟨rfl, h⟩
  | cons a rest ih =>
    simp only [run] at hs
    cases hst : step s a with
    | none => simp [hst] at hs
    | some s2 =>
      rw [hst] at hs
      simp only [Option.some_bind] at hs
      have h2 := step_capacity s s2 a hst h
      have h3 := ih s2 hs (by rw [h2.1]; exact h2.2)
      rw [h2.1] at h3
      exact h3

/-- C7: on a cache built with capacity `n` (so `n > 0`), after every finite
schedule of `Add`, `AddWithTTL` (any keys, values, ttls), other store calls, clock
ticks and steps of the armed timers, `Len() ≤ n`. -/
theorem capacity_invariant (n : Int) (onEvicted : Bool) (l : LruWithTTL K V)
    (acts : List (Action K V)) (s : Sys K V)
    (hnew : NewTTLWithEvict n onEvicted = (some l, none))
    (hrun : run (Sys.init l) acts = some s) :
    0 < n ∧ s.lru.Cache.Len ≤ n := by
  obtain ⟨_, hi, hsz, hn⟩ := new_schedule_nil n onEvicted l hnew
  have h := run_capacity acts _ s hrun (by
    simp only [Sys.init, Cache.Len, hi, hsz, List.length_nil]
    omega)
  simp only [Sys.init, hsz] at h
  exact ⟨hn, h.2⟩

/-- Witness for C7: capacity 1, two `AddWithTTL` calls and both steps of the
first timer. -/
theorem capacity_invariant_witness :
    0 < (1 : Int) ∧
    ({ lru := { Cache := { size := 1, items := [("b", 2)], hasOnEvict := false, evictLog := [] },
                schedule := ["b"] },
       timers := [{ key := "a", wake := 0, deferred := [] },
                 { key := "b", wake := 5, deferred := [Deferred.clearSchedule, Deferred.Remove] }],
       now := 0 } : Sys String Int).lru.Cache.Len ≤ 1 :=
  capacity_invariant 1 false
    { Cache := { size := 1, items := [], hasOnEvict := false, evictLog := [] }, schedule := [] }
    [Action.AddWithTTL "a" 1 0, Action.AddWithTTL "b" 2 5, Action.timer 0, Action.timer 0]
    _ (by decide) (by decide)

end Capacity

section Scenario

/-- C9: on a fresh cache of capacity 2, after `Add("a",1)`, `Add("b",2)`, the call
`AddWithTTL("c",3,50ms)` returns true, evicts `"a"` and leaves `Len() = 2`; its
timer cannot run before 50ms have passed; once it has fired (60ms later),
`Get("c")` reports not-found, `Len() = 1` and `Contains("b")` is true. Durations
are in nanoseconds. -/
theorem scenario_capacity_two (onEvicted : Bool) :
    ∃ (l : LruWithTTL String Int) (s2 s5 : Sys String Int),
      NewTTLWithEvict 2 onEvicted = (some l, none) ∧
      run (Sys.init l) [Action.Add "a" 1, Action.Add "b" 2] = some s2 ∧
      (AddWithTTL s2 "c" 3 50000000).1 = true ∧
      (AddWithTTL s2 "c" 3 50000000).2.lru.Cache.Contains "a" = false ∧
      (AddWithTTL s2 "c" 3 50000000).2.lru.Cache.evictLog
        = (if onEvicted then [("a", 1)] else []) ∧
      (AddWithTTL s2 "c" 3 50000000).2.lru.Cache.Len = 2 ∧
      step (AddWithTTL s2 "c" 3 50000000).2 (Action.timer 0) = none ∧
      run (AddWithTTL s2 "c" 3 50000000).2
        [Action.tick 60000000, Action.timer 0, Action.timer 0] = some s5 ∧
      (s5.lru.Cache.Get "c").1 = none ∧
      s5.lru.Cache.Len = 1 ∧
      s5.lru.Cache.Contains "b" = true := by
  refine ⟨{ Cache := { size := 2, items := [], hasOnEvict := onEvicted, evictLog := [] },
            schedule := [] },
          { lru := { Cache := { size := 2, items := [("b", 2), ("a", 1)],
                                hasOnEvict := onEvicted, evictLog := [] },
                     schedule := [] },
            timers := [], now := 0 },
          { lru := { Cache := { size := 2, items := [("b", 2)], hasOnEvict := onEvicted,
                                evictLog := if onEvicted then [("c", 3), ("a", 1)] else [] },
                     schedule := [] },
            timers := [{ key := "c", wake := 50000000, deferred := [] }], now := 60000000 }, ?_⟩
  cases onEvicted <;> decide

end Scenario

section Timers

variable {K V : Type} [DecidableEq K]

theorem mem_of_getElem?_some {α : Type} {l : List α} {i : Nat} {a : α} (h : l[i]? = some a) :
    a ∈ l := by
  obtain ⟨hi, rfl⟩ := List.getElem?_eq_some.mp h
  exact List.getElem_mem hi

theorem step_timer_inv (s s1 : Sys K V) (i : Nat) (hs : step s (Action.timer i) = some s1) :
    ∃ t d rest, s.timers[i]? = some t ∧ t.wake ≤ s.now ∧ t.deferred = d :: rest ∧
      s1 = { s with lru := runDeferred d s.lru t.key
                    timers := s.timers.set i { t with deferred := rest } } := by
  simp only [step] at hs
  split at hs
  · simp at hs
  · rename_i t ht
    split at hs
    · simp at hs
    · rename_i hw
      split at hs
      · simp at hs
      · rename_i d rest hd
        simp only [Option.some.injEq] at hs
        exact ⟨t, d, rest, ht, by omega, hd, hs.symm⟩

theorem run_cons_inv (s s1 : Sys K V) (a : Action K V) (rest : List (Action K V))
    (hs : run s (a :: rest) = some s1) : ∃ s2, step s a = some s2 ∧ run s2 rest = some s1 := by
  simp only [run] at hs
  cases hst : step s a with
  | none => simp [hst] at hs
  | some s2 =>
    rw [hst] at hs
    exact ⟨s2, rfl, by simpa using hs⟩

theorem arm_timersOK (s : Sys K V) (key : K) (ttl : Int) (h : TimersOK s) :
    TimersOK (arm s key ttl) := by
  unfold arm
  split
  · exact h
  · intro t ht
    simp only [List.mem_append, List.mem_singleton] at ht
    rcases ht with ht | ht
    · exact h t ht
    · subst ht
      exact Or.inl rfl

theorem step_timersOK (s s1 : Sys K V) (a : Action K V) (hs : step s a = some s1)
    (h : TimersOK s) : TimersOK s1 := by
  cases a with
  | Add key value =>
    simp only [step, Option.some.injEq] at hs
    subst hs
    exact h
  | Get key =>
    simp only [step, Option.some.injEq] at hs
    subst hs
    exact h
  | Remove key =>
    simp only [step, Option.some.injEq] at hs
    subst hs
    exact h
  | AddWithTTL key value ttl =>
    simp only [step, Option.some.injEq] at hs
    subst hs
    exact arm_timersOK s key ttl h
  | tick d =>
    simp only [step, Option.some.injEq] at hs
    subst hs
    exact h
  | timer i =>
    obtain ⟨t, d, rest, ht, _, hd, rfl⟩ := step_timer_inv s s1 i hs
    intro u hu
    rcases List.mem_or_eq_of_mem_set hu with hu | hu
    · exact h u hu
    · subst hu
      have htm : t ∈ s.timers := mem_of_getElem?_some ht
      rcases h t htm with h1 | h1 | h1
      · rw [h1] at hd
        simp only [List.cons.injEq] at hd
        exact Or.inr (Or.inl hd.2.symm)
      · rw [h1] at hd
        simp only [List.cons.injEq] at hd
        exact Or.inr (Or.inr hd.2.symm)
      · rw [h1] at hd
        simp at hd

theorem run_timersOK (acts : List (Action K V)) (s s1 : Sys K V) (hs : run s acts = some s1)
    (h : TimersOK s) : TimersOK s1 := by
  induction acts generalizing s with
  | nil =>
    simp only [run, Option.some.injEq] at hs
    subst hs
    exact h
  | cons a rest ih =>
    obtain ⟨s2, h1, h2⟩ := run_cons_inv s s1 a rest hs
    exact ih s2 h2 (step_timersOK s s2 a h1 h)

theorem init_timersOK (l : LruWithTTL K V) : TimersOK (Sys.init l) := by
  intro t ht
  simp [Sys.init] at ht

/-- C4 (as amended): in every state reachable from a fresh cache, a goroutine that
has run its `Cache.Remove` has already run its `clearSchedule`: the deferred calls
run in the order clear the pending mark, then remove from the store. -/
theorem clear_precedes_remove (l : LruWithTTL K V) (acts : List (Action K V)) (s : Sys K V)
    (hrun : run (Sys.init l) acts = some s) :
    ∀ t ∈ s.timers, (t.removed = true → t.cleared = true) ∧
      (t.deferred = [Deferred.clearSchedule, Deferred.Remove] ∨
        t.deferred = [Deferred.Remove] ∨ t.deferred = []) := by
  intro t ht
  have h := run_timersOK acts _ s hrun (init_timersOK l) t ht
  refine ⟨?_, h⟩
  rcases h with h | h | h <;> simp [Timer.removed, Timer.cleared, h]

/-- Witness for the amended C4: a timer between its two deferred calls. -/
theorem clear_precedes_remove_witness :
    ((({ key := "k", wake := 0, deferred := [Deferred.Remove] } : Timer String).removed = true →
        ({ key := "k", wake := 0, deferred := [Deferred.Remove] } : Timer String).cleared = true) ∧
      (({ key := "k", wake := 0, deferred := [Deferred.Remove] } : Timer String).deferred
          = [Deferred.clearSchedule, Deferred.Remove] ∨
        ({ key := "k", wake := 0, deferred := [Deferred.Remove] } : Timer String).deferred
          = [Deferred.Remove] ∨
        ({ key := "k", wake := 0, deferred := [Deferred.Remove] } : Timer String).deferred = [])) :=
  clear_precedes_remove
    ({ Cache := { size := 2, items := [], hasOnEvict := true, evictLog := [] },
       schedule := [] } : LruWithTTL String Int)
    [Action.AddWithTTL "k" 1 0, Action.timer 0]
    { lru := { Cache := { size := 2, items := [("k", 1)], hasOnEvict := true, evictLog := [] },
               schedule := [] },
      timers := [{ key := "k", wake := 0, deferred := [Deferred.Remove] }], now := 0 }
    (by decide) { key := "k", wake := 0, deferred := [Deferred.Remove] } (by decide)

/-- C4 (counterexample to the claim as stated): after `AddWithTTL("k",1,0)` and the
first step of its timer, the pending mark of `"k"` is cleared while `"k"` is still
in the store and the timer has not run its `Cache.Remove`; so it is not true that
every reachable timer that has cleared its mark has already removed its key. -/
theorem remove_then_clear_counterexample :
    (∃ s : Sys String Int,
        run (Sys.init { Cache := { size := 2, items := [], hasOnEvict := true, evictLog := [] },
                        schedule := [] })
          [Action.AddWithTTL "k" 1 0, Action.timer 0] = some s ∧
        "k" ∉ s.lru.schedule ∧ s.lru.Cache.Contains "k" = true ∧
        s.timers.map Timer.cleared = [true] ∧ s.timers.map Timer.removed = [false]) ∧
    ¬ (∀ (l : LruWithTTL String Int) (acts : List (Action String Int)) (s : Sys String Int),
        run (Sys.init l) acts = some s → ∀ t ∈ s.timers, t.cleared = true → t.removed = true) := by
  refine ⟨⟨{ lru := { Cache := { size := 2, items := [("k", 1)], hasOnEvict := true,
                                 evictLog := [] },
                      schedule := [] },
             timers := [{ key := "k", wake := 0, deferred := [Deferred.Remove] }], now := 0 },
           by decide⟩, ?_⟩
  intro h
  have h1 := h { Cache := { size := 2, items := [], hasOnEvict := true, evictLog := [] },
                 schedule := [] }
    [Action.AddWithTTL "k" 1 0, Action.timer 0]
    { lru := { Cache := { size := 2, items := [("k", 1)], hasOnEvict := true, evictLog := [] },
               schedule := [] },
      timers := [{ key := "k", wake := 0, deferred := [Deferred.Remove] }], now := 0 }
    (by decide) { key := "k", wake := 0, deferred := [Deferred.Remove] } (by decide) (by decide)
  revert h1
  decide

theorem countP_set_add {α : Type} (p : α → Bool) (l : List α) (i : Nat) (a b : α)
    (h : l[i]? = some a) :
    List.countP p (l.set i b) + (if p a = true then 1 else 0)
      = List.countP p l + (if p b = true then 1 else 0) := by
  induction l generalizing i with
  | nil => simp at h
  | cons x rest ih =>
    cases i with
    | zero =>
      simp only [List.getElem?_cons_zero, Option.some.injEq] at h
      subst h
      simp only [List.set_cons_zero, List.countP_cons]
      omega
    | succ j =>
      simp only [List.getElem?_cons_succ] at h
      have := ih j h
      simp only [List.set_cons_succ, List.countP_cons]
      omega

theorem arm_scheduleOK (s : Sys K V) (key : K) (ttl : Int) (h : ScheduleOK s) :
    ScheduleOK (arm s key ttl) := by
  unfold arm
  split
  · exact h
  · rename_i hc
    have hnot : key ∉ s.lru.schedule := by simpa using hc
    have h0 : s.lru.schedule.count key = 0 := List.count_eq_zero.mpr hnot
    intro k
    have hk := h k
    simp only [List.countP_append, List.countP_cons, List.countP_nil, List.count_cons]
    by_cases e : key = k
    · subst e
      simp [pendingFor, expiryTimer, Timer.cleared]
      omega
    · simp [pendingFor, expiryTimer, e]
      exact hk

theorem step_scheduleOK (s s1 : Sys K V) (a : Action K V) (hs : step s a = some s1)
    (hT : TimersOK s) (h : ScheduleOK s) : ScheduleOK s1 := by
  cases a with
  | Add key value =>
    simp only [step, Option.some.injEq] at hs
    subst hs
    exact h
  | Get key =>
    simp only [step, Option.some.injEq] at hs
    subst hs
    exact h
  | Remove key =>
    simp only [step, Option.some.injEq] at hs
    subst hs
    exact h
  | AddWithTTL key value ttl =>
    simp only [step, Option.some.injEq] at hs
    subst hs
    exact arm_scheduleOK s key ttl h
  | tick d =>
    simp only [step, Option.some.injEq] at hs
    subst hs
    exact h
  | timer i =>
    obtain ⟨t, d, rest, ht, _, hd, rfl⟩ := step_timer_inv s s1 i hs
    have htm : t ∈ s.timers := mem_of_getElem?_some ht
    intro k
    have hk := h k
    have hset := countP_set_add (pendingFor k) s.timers i t { t with deferred := rest } ht
    rcases hT t htm with h1 | h1 | h1
    · rw [h1] at hd
      simp only [List.cons.injEq] at hd
      obtain ⟨rfl, rfl⟩ := hd
      by_cases e : t.key = k
      · subst e
        have hc0 : (List.filter (fun x => !decide (x = t.key)) s.lru.schedule).count t.key = 0 := by
          apply List.count_eq_zero.mpr
          simp [List.mem_filter]
        simp only [runDeferred, clearSchedule]
        simp [pendingFor, Timer.cleared, h1] at hset
        rw [hc0]
        omega
      · have hcf : (List.filter (fun x => !decide (x = t.key)) s.lru.schedule).count k
            = s.lru.schedule.count k := by
          apply List.count_filter
          simp only [Bool.not_eq_true', decide_eq_false_iff_not]
          exact fun h => e h.symm
        simp only [runDeferred, clearSchedule]
        simp [pendingFor, e] at hset
        rw [hcf]
        omega
    · rw [h1] at hd
      simp only [List.cons.injEq] at hd
      obtain ⟨rfl, rfl⟩ := hd
      simp only [runDeferred]
      simp [pendingFor, Timer.cleared, h1] at hset
      omega
    · rw [h1] at hd
      simp at hd

theorem run_scheduleOK (acts : List (Action K V)) (s s1 : Sys K V) (hs : run s acts = some s1)
    (hT : TimersOK s) (h : ScheduleOK s) : ScheduleOK s1 := by
  induction acts generalizing s with
  | nil =>
    simp only [run, Option.some.injEq] at hs
    subst hs
    exact h
  | cons a rest ih =>
    obtain ⟨s2, h1, h2⟩ := run_cons_inv s s1 a rest hs
    exact ih s2 h2 (step_timersOK s s2 a h1 hT) (step_scheduleOK s s2 a h1 hT h)

theorem init_scheduleOK (l : LruWithTTL K V) (h : l.schedule = []) : ScheduleOK (Sys.init l) := by
  intro k
  simp [Sys.init, h]

/-- C5 (as amended): in every state reachable from a freshly constructed cache by
interleaving atomic calls with the individual steps of the timers, each key has
at most one timer that has been spawned and has not yet run its `clearSchedule`,
and it has one exactly when the key is marked pending; while such a timer exists
`AddWithTTL` on that key spawns nothing. -/
theorem single_pending_timer_per_key (n : Int) (onEvicted : Bool) (l : LruWithTTL K V)
    (acts : List (Action K V)) (s : Sys K V)
    (hnew : NewTTLWithEvict n onEvicted = (some l, none))
    (hrun : run (Sys.init l) acts = some s) (k : K) :
    (s.timers.filter (pendingFor k)).length = (if k ∈ s.lru.schedule then 1 else 0) ∧
    (s.timers.filter (pendingFor k)).length ≤ 1 ∧
    ((∃ t ∈ s.timers, pendingFor k t = true) →
      ∀ (v : V) (ttl : Int), (AddWithTTL s k v ttl).2.timers = s.timers) := by
  have hS := run_scheduleOK acts _ s hrun (init_timersOK l)
    (init_scheduleOK l (new_schedule_nil n onEvicted l hnew).1) k
  rw [List.countP_eq_length_filter] at hS
  have hlen : (s.timers.filter (pendingFor k)).length = (if k ∈ s.lru.schedule then 1 else 0) := by
    by_cases hk : k ∈ s.lru.schedule
    · have := List.count_pos_iff.mpr hk
      simp only [hk, if_true]
      omega
    · have := List.count_eq_zero.mpr hk
      simp only [hk, if_false]
      omega
  refine ⟨hlen, by omega, ?_⟩
  rintro ⟨t, ht, hp⟩ v ttl
  have hmem : t ∈ s.timers.filter (pendingFor k) := List.mem_filter.mpr ⟨ht, hp⟩
  have hpos : 0 < (s.timers.filter (pendingFor k)).length := List.length_pos_of_mem hmem
  have hk : k ∈ s.lru.schedule := by
    by_contra hk
    simp only [hk, if_false] at hlen
    omega
  simp [AddWithTTL, arm, hk]

/-- Witness for the amended C5: the state in which a second timer for `"k"` was
armed after the first cleared its mark. -/
theorem single_pending_timer_per_key_witness :
    (([{ key := "k", wake := 0, deferred := [Deferred.Remove] },
       { key := "k", wake := 7, deferred := [Deferred.clearSchedule, Deferred.Remove] }]
        : List (Timer String)).filter (pendingFor "k")).length ≤ 1 :=
  (single_pending_timer_per_key 2 true
    ({ Cache := { size := 2, items := [], hasOnEvict := true, evictLog := [] },
       schedule := [] } : LruWithTTL String Int)
    [Action.AddWithTTL "k" 1 0, Action.timer 0, Action.AddWithTTL "k" 2 7]
    { lru := { Cache := { size := 2, items := [("k", 2)], hasOnEvict := true, evictLog := [] },
               schedule := ["k"] },
      timers := [{ key := "k", wake := 0, deferred := [Deferred.Remove] },
                 { key := "k", wake := 7, deferred := [Deferred.clearSchedule, Deferred.Remove] }],
      now := 0 }
    (by decide) (by decide) "k").2.1

/-- C5 (counterexample to the claim as stated): after `AddWithTTL("k",1,0)`, the
first step of its timer (which clears the mark) and a second `AddWithTTL("k",2,7)`,
two timers for `"k"` are spawned and unfinished, the first with its store removal
still outstanding; that removal then deletes the value written by the second
call while the second timer is still asleep. -/
theorem single_owner_counterexample :
    (∃ s s1 : Sys String Int,
        run (Sys.init { Cache := { size := 2, items := [], hasOnEvict := true, evictLog := [] },
                        schedule := [] })
          [Action.AddWithTTL "k" 1 0, Action.timer 0, Action.AddWithTTL "k" 2 7] = some s ∧
        s.timers.map (fun t => (t.key, t.removed)) = [("k", false), ("k", false)] ∧
        s.lru.Cache.Peek "k" = some 2 ∧
        step s (Action.timer 0) = some s1 ∧
        s1.lru.Cache.Peek "k" = none ∧ "k" ∈ s1.lru.schedule ∧
        step s1 (Action.timer 1) = none) ∧
    ¬ (∀ (n : Int) (onEvicted : Bool) (l : LruWithTTL String Int)
        (acts : List (Action String Int)) (s : Sys String Int),
        NewTTLWithEvict n onEvicted = (some l, none) → run (Sys.init l) acts = some s →
        ∀ k, (s.timers.filter (fun t => decide (t.key = k) && t.unfinished)).length ≤ 1) := by
  refine ⟨⟨{ lru := { Cache := { size := 2, items := [("k", 2)], hasOnEvict := true,
                                 evictLog := [] },
                      schedule := ["k"] },
             timers := [{ key := "k", wake := 0, deferred := [Deferred.Remove] },
                        { key := "k", wake := 7,
                          deferred := [Deferred.clearSchedule, Deferred.Remove] }],
             now := 0 },
           { lru := { Cache := { size := 2, items := [], hasOnEvict := true,
                                 evictLog := [("k", 2)] },
                      schedule := ["k"] },
             timers := [{ key := "k", wake := 0, deferred := [] },
                        { key := "k", wake := 7,
                          deferred := [Deferred.clearSchedule, Deferred.Remove] }],
             now := 0 },
           by decide⟩, ?_⟩
  intro h
  have h1 := h 2 true
    { Cache := { size := 2, items := [], hasOnEvict := true, evictLog := [] }, schedule := [] }
    [Action.AddWithTTL "k" 1 0, Action.timer 0, Action.AddWithTTL "k" 2 7]
    { lru := { Cache := { size := 2, items := [("k", 2)], hasOnEvict := true, evictLog := [] },
               schedule := ["k"] },
      timers := [{ key := "k", wake := 0, deferred := [Deferred.Remove] },
                 { key := "k", wake := 7, deferred := [Deferred.clearSchedule, Deferred.Remove] }],
      now := 0 }
    (by decide) (by decide) "k"
  revert h1
  decide

end Timers

section PendingSubset

variable {K V : Type} [DecidableEq K]

theorem hlru.Cache.Add_Contains_self (c : Cache K V) (k : K) (v : V) (h : 0 < c.size) :
    (c.Add k v).2.Contains k = true := by
  unfold Cache.Add
  split
  · simp [Cache.Contains]
  · dsimp only
    split
    · rename_i hgt
      cases hi : c.items with
      | nil => simp [Cache.Len, hi] at hgt; omega
      | cons x xs =>
        simp [Cache.Contains, Cache.removeOldest_items, hi]
    · simp [Cache.Contains]

theorem step_schedule_subset (s s1 : Sys K V) (a : Action K V) (hs : step s a = some s1)
    (k : K) (hk : k ∈ s1.lru.schedule) :
    k ∈ s.lru.schedule ∨
      ∃ v ttl, a = Action.AddWithTTL k v ttl ∧ s1.lru.Cache = (s.lru.Cache.Add k v).2 := by
  cases a with
  | Add key value =>
    simp only [step, Option.some.injEq] at hs
    subst hs
    exact Or.inl hk
  | Get key =>
    simp only [step, Option.some.injEq] at hs
    subst hs
    exact Or.inl hk
  | Remove key =>
    simp only [step, Option.some.injEq] at hs
    subst hs
    exact Or.inl hk
  | AddWithTTL key value ttl =>
    simp only [step, Option.some.injEq] at hs
    subst hs
    by_cases hc : key ∈ s.lru.schedule
    · have : (AddWithTTL s key value ttl).2.lru.schedule = s.lru.schedule := by
        simp [AddWithTTL, arm, hc]
      rw [this] at hk
      exact Or.inl hk
    · have : (AddWithTTL s key value ttl).2.lru.schedule = key :: s.lru.schedule := by
        simp [AddWithTTL, arm, hc]
      rw [this] at hk
      rcases List.mem_cons.mp hk with hk | hk
      · subst hk
        exact Or.inr ⟨value, ttl, rfl, AddWithTTL_Cache s k value ttl⟩
      · exact Or.inl hk
  | tick d =>
    simp only [step, Option.some.injEq] at hs
    subst hs
    exact Or.inl hk
  | timer i =>
    obtain ⟨t, d, rest, _, _, _, rfl⟩ := step_timer_inv s s1 i hs
    cases d with
    | Remove => exact Or.inl hk
    | clearSchedule =>
      simp only [runDeferred, clearSchedule, List.mem_filter] at hk
      exact Or.inl hk.1

theorem run_pending_subset (acts : List (Action K V)) (s s1 : Sys K V)
    (hrun : run s acts = some s1) (hkeep : noPendingDrop s acts = true)
    (hsize : 0 < s.lru.Cache.size) (hlen : s.lru.Cache.Len ≤ s.lru.Cache.size)
    (hinv : ∀ k ∈ s.lru.schedule, s.lru.Cache.Contains k = true) :
    ∀ k ∈ s1.lru.schedule, s1.lru.Cache.Contains k = true := by
  induction acts generalizing s with
  | nil =>
    simp only [run, Option.some.injEq] at hrun
    subst hrun
    exact hinv
  | cons a rest ih =>
    obtain ⟨s2, h1, h2⟩ := run_cons_inv s s1 a rest hrun
    simp only [noPendingDrop, h1, Bool.and_eq_true, Bool.not_eq_true'] at hkeep
    have hcap := step_capacity s s2 a h1 hlen
    refine ih s2 h2 hkeep.2 (by rw [hcap.1]; exact hsize) (by rw [hcap.1]; exact hcap.2) ?_
    intro k hk
    rcases step_schedule_subset s s2 a h1 k hk with hold | ⟨v, ttl, _, hc⟩
    · have hd := hkeep.1
      simp only [dropsPending, h1] at hd
      have hall := List.any_eq_false.mp hd k hold
      simp only [hinv k hold, Bool.true_and, Bool.not_eq_true', Bool.not_eq_false] at hall
      exact hall
    · rw [hc]
      exact Cache.Add_Contains_self _ _ _ hsize

/-- C8 (as amended): from a freshly constructed cache, along every schedule of
`Add`, `AddWithTTL`, `Get`, `Remove` calls, clock ticks and timer steps in which
no step takes a key that is pending at that moment out of the store (no capacity
eviction and no removal of such a key), every key marked pending is present in
the store. -/
theorem pending_subset_of_store (n : Int) (onEvicted : Bool) (l : LruWithTTL K V)
    (acts : List (Action K V)) (s : Sys K V)
    (hnew : NewTTLWithEvict n onEvicted = (some l, none))
    (hrun : run (Sys.init l) acts = some s)
    (hkeep : noPendingDrop (Sys.init l) acts = true) :
    ∀ k ∈ s.lru.schedule, s.lru.Cache.Contains k = true := by
  obtain ⟨hs, hi, hsz, hn⟩ := new_schedule_nil n onEvicted l hnew
  refine run_pending_subset acts (Sys.init l) s hrun hkeep ?_ ?_ ?_
  · simp only [Sys.init, hsz]
    exact hn
  · simp only [Sys.init, Cache.Len, hi, hsz, List.length_nil]
    omega
  · intro k hk
    simp [Sys.init, hs] at hk

/-- Witness for the amended C8: two armed keys, one of them refreshed by `Get`. -/
theorem pending_subset_of_store_witness :
    ({ size := 2, items := [("a", 1), ("b", 2)], hasOnEvict := false, evictLog := [] }
        : Cache String Int).Contains "b" = true :=
  pending_subset_of_store 2 false
    ({ Cache := { size := 2, items := [], hasOnEvict := false, evictLog := [] },
       schedule := [] } : LruWithTTL String Int)
    [Action.AddWithTTL "a" 1 5, Action.AddWithTTL "b" 2 5, Action.Get "a"]
    { lru := { Cache := { size := 2, items := [("a", 1), ("b", 2)], hasOnEvict := false,
                          evictLog := [] },
               schedule := ["b", "a"] },
      timers := [{ key := "a", wake := 5, deferred := [Deferred.clearSchedule, Deferred.Remove] },
                 { key := "b", wake := 5, deferred := [Deferred.clearSchedule, Deferred.Remove] }],
      now := 0 }
    (by decide) (by decide) (by decide) "b" (by decide)

/-- C8 (counterexample to the claim as stated): on a cache of capacity 1, after
`AddWithTTL("a",1,5)` and `Add("b",2)` the key `"a"` has been evicted by capacity
pressure and is still marked pending; the same happens after `Remove("a")`. -/
theorem pending_subset_counterexample :
    (∃ s : Sys String Int,
        run (Sys.init { Cache := { size := 1, items := [], hasOnEvict := false, evictLog := [] },
                        schedule := [] })
          [Action.AddWithTTL "a" 1 5, Action.Remove "a"] = some s ∧
        "a" ∈ s.lru.schedule ∧ s.lru.Cache.Contains "a" = false) ∧
    ¬ (∀ (n : Int) (onEvicted : Bool) (l : LruWithTTL String Int)
        (acts : List (Action String Int)) (s : Sys String Int),
        NewTTLWithEvict n onEvicted = (some l, none) → run (Sys.init l) acts = some s →
        ∀ k ∈ s.lru.schedule, s.lru.Cache.Contains k = true) := by
  refine ⟨⟨{ lru := { Cache := { size := 1, items := [], hasOnEvict := false, evictLog := [] },
                      schedule := ["a"] },
             timers := [{ key := "a", wake := 5,
                          deferred := [Deferred.clearSchedule, Deferred.Remove] }],
             now := 0 },
           by decide⟩, ?_⟩
  intro h
  have h1 := h 1 false
    { Cache := { size := 1, items := [], hasOnEvict := false, evictLog := [] }, schedule := [] }
    [Action.AddWithTTL "a" 1 5, Action.Add "b" 2]
    { lru := { Cache := { size := 1, items := [("b", 2)], hasOnEvict := false, evictLog := [] },
               schedule := ["a"] },
      timers := [{ key := "a", wake := 5,
                   deferred := [Deferred.clearSchedule, Deferred.Remove] }],
      now := 0 }
    (by decide) (by decide) "a" (by decide)
  revert h1
  decide

end PendingSubset

section Dedup

variable {K V : Type} [DecidableEq K]

theorem hlru.Cache.Add_Peek_self (c : Cache K V) (k : K) (v : V) (h : 0 < c.size) :
    (c.Add k v).2.Peek k = some v := by
  unfold Cache.Add
  split
  · simp [Cache.Peek]
  · dsimp only
    split
    · rename_i hgt
      cases hi : c.items with
      | nil => simp [Cache.Len, hi] at hgt; omega
      | cons x xs =>
        simp [Cache.Peek, Cache.removeOldest_items, hi]
    · simp [Cache.Peek]

theorem hlru.Cache.Remove_items (c : Cache K V) (k : K) :
    (c.Remove k).2.items = c.items.filter (fun x => !decide (x.1 = k)) := by
  unfold Cache.Remove
  split
  · simp [Cache.onEvict_items]
  · rename_i h
    have h1 := List.find?_eq_none.mp h
    symm
    apply List.filter_eq_self.mpr
    intro a ha
    have := h1 a ha
    simpa using this

theorem hlru.Cache.Remove_absent (c : Cache K V) (k : K) :
    (c.Remove k).2.Contains k = false ∧ (c.Remove k).2.Peek k = none ∧
      ((c.Remove k).2.Get k).1 = none := by
  have hf : (c.Remove k).2.items.find? (fun e => decide (e.1 = k)) = none := by
    rw [Cache.Remove_items]
    apply List.find?_eq_none.mpr
    intro x hx
    have := (List.mem_filter.mp hx).2
    simpa using this
  refine ⟨?_, ?_, ?_⟩
  · unfold Cache.Contains
    rw [Cache.Remove_items]
    apply List.any_eq_false.mpr
    intro x hx
    have := (List.mem_filter.mp hx).2
    simpa using this
  · simp [Cache.Peek, hf]
  · simp [Cache.Get, hf]

theorem step_timer_eq (s : Sys K V) (i : Nat) (t : Timer K) (d : Deferred) (rest : List Deferred)
    (ht : s.timers[i]? = some t) (hw : t.wake ≤ s.now) (hd : t.deferred = d :: rest) :
    step s (Action.timer i) =
      some { s with lru := runDeferred d s.lru t.key
                    timers := s.timers.set i { t with deferred := rest } } := by
  have hw2 : ¬ s.now < t.wake := by omega
  simp only [step, ht, hw2, if_false]
  split
  · rename_i h
    rw [hd] at h
    simp at h
  · rename_i d2 rest2 h
    rw [hd] at h
    simp only [List.cons.injEq] at h
    obtain ⟨rfl, rfl⟩ := h
    rfl

theorem step_timer_asleep (s : Sys K V) (i : Nat) (t : Timer K)
    (ht : s.timers[i]? = some t) (hw : s.now < t.wake) :
    step s (Action.timer i) = none := by
  simp [step, ht, hw]

theorem getElem?_set_self_some {α : Type} (l : List α) (i : Nat) (a b : α) (h : l[i]? = some a) :
    (l.set i b)[i]? = some b := by
  obtain ⟨hi, _⟩ := List.getElem?_eq_some.mp h
  simp [List.getElem?_set, hi]

theorem fire_run (s : Sys K V) (i : Nat) (t : Timer K)
    (ht : s.timers[i]? = some t) (hw : t.wake ≤ s.now)
    (hd : t.deferred = [Deferred.clearSchedule, Deferred.Remove]) :
    run s [Action.timer i, Action.timer i] =
      some { lru := runDeferred Deferred.Remove
                      (runDeferred Deferred.clearSchedule s.lru t.key) t.key
             timers := (s.timers.set i { t with deferred := [Deferred.Remove] }).set i
                          { t with deferred := [] }
             now := s.now } := by
  have h2 := step_timer_eq s i t Deferred.clearSchedule [Deferred.Remove] ht hw hd
  have h3 := step_timer_eq
    ({ s with lru := runDeferred Deferred.clearSchedule s.lru t.key
              timers := s.timers.set i { t with deferred := [Deferred.Remove] } } : Sys K V)
    i { t with deferred := [Deferred.Remove] } Deferred.Remove []
    (getElem?_set_self_some _ _ _ _ ht) hw rfl
  simp only [run, h2, Option.some_bind, h3]

/-- C2: when key `k` is already marked pending, `AddWithTTL k v2 ttl2` spawns no
goroutine and leaves schedule map, timers (with their wake-up instants) and clock
unchanged for every `ttl2`, while the store receives `v2` exactly as by
`Cache.Add`; the timer armed originally for `k` cannot run before its own wake-up
instant, can run at that instant whatever `ttl2` is, and then removes `k` (and so
`v2`) from the store and clears the mark. -/
theorem AddWithTTL_pending_dedup (s : Sys K V) (k : K) (v2 : V) (ttl2 : Int)
    (hp : k ∈ s.lru.schedule) (hsize : 0 < s.lru.Cache.size) :
    (AddWithTTL s k v2 ttl2).2.timers = s.timers ∧
    (AddWithTTL s k v2 ttl2).2.lru.schedule = s.lru.schedule ∧
    (AddWithTTL s k v2 ttl2).2.now = s.now ∧
    (AddWithTTL s k v2 ttl2).2.lru.Cache = (s.lru.Cache.Add k v2).2 ∧
    (AddWithTTL s k v2 ttl2).2.lru.Cache.Peek k = some v2 ∧
    ∀ (i : Nat) (t : Timer K), s.timers[i]? = some t → t.key = k →
      t.deferred = [Deferred.clearSchedule, Deferred.Remove] →
      (∀ d : Nat, s.now + d < t.wake →
        run (AddWithTTL s k v2 ttl2).2 [Action.tick d, Action.timer i] = none) ∧
      ∃ s3 : Sys K V,
        run (AddWithTTL s k v2 ttl2).2
          [Action.tick (t.wake - s.now), Action.timer i, Action.timer i] = some s3 ∧
        s3.now = max s.now t.wake ∧
        s3.lru.Cache.Contains k = false ∧ s3.lru.Cache.Peek k = none ∧
        (s3.lru.Cache.Get k).1 = none ∧ k ∉ s3.lru.schedule := by
  have hr : (AddWithTTL s k v2 ttl2).2 =
      { s with lru := { s.lru with Cache := (s.lru.Cache.Add k v2).2 } } := by
    simp [AddWithTTL, arm, hp]
  rw [hr]
  refine ⟨rfl, rfl, rfl, rfl, Cache.Add_Peek_self _ _ _ hsize, ?_⟩
  intro i t ht hk hd
  subst hk
  constructor
  · intro d hlt
    have h1 : step ({ s with lru := { s.lru with Cache := (s.lru.Cache.Add t.key v2).2 } } : Sys K V)
        (Action.tick d) = some { s with lru := { s.lru with Cache := (s.lru.Cache.Add t.key v2).2 }
                                        now := s.now + d } := rfl
    have h2 := step_timer_asleep
      ({ s with lru := { s.lru with Cache := (s.lru.Cache.Add t.key v2).2 }
                now := s.now + d } : Sys K V) i t ht hlt
    simp only [run, h1, Option.some_bind, h2]
    rfl
  · have h1 : step ({ s with lru := { s.lru with Cache := (s.lru.Cache.Add t.key v2).2 } } : Sys K V)
        (Action.tick (t.wake - s.now))
        = some { s with lru := { s.lru with Cache := (s.lru.Cache.Add t.key v2).2 }
                        now := s.now + (t.wake - s.now) } := rfl
    have h2 := fire_run
      ({ s with lru := { s.lru with Cache := (s.lru.Cache.Add t.key v2).2 }
                now := s.now + (t.wake - s.now) } : Sys K V)
      i t ht (by simp only; omega) hd
    have h4 : run ({ s with lru := { s.lru with Cache := (s.lru.Cache.Add t.key v2).2 } } : Sys K V)
        [Action.tick (t.wake - s.now), Action.timer i, Action.timer i]
        = run ({ s with lru := { s.lru with Cache := (s.lru.Cache.Add t.key v2).2 }
                        now := s.now + (t.wake - s.now) } : Sys K V)
            [Action.timer i, Action.timer i] := by
      simp only [run, h1, Option.some_bind]
    rw [h2] at h4
    refine ⟨_, h4, ?_, ?_⟩
    · simp only
      omega
    · have ha := Cache.Remove_absent (s.lru.Cache.Add t.key v2).2 t.key
      refine ⟨ha.1, ha.2.1, ha.2.2, ?_⟩
      simp [runDeferred, clearSchedule, List.mem_filter]

/-- Witness for C2: `"k"` armed with ttl 10, then written again with ttl 3600. -/
theorem AddWithTTL_pending_dedup_witness :
    (AddWithTTL ({ lru := { Cache := { size := 2, items := [("k", 1)], hasOnEvict := true,
                                       evictLog := [] },
                            schedule := ["k"] },
                   timers := [{ key := "k", wake := 10,
                                deferred := [Deferred.clearSchedule, Deferred.Remove] }],
                   now := 1 } : Sys String Int) "k" 2 3600).2.timers
      = [{ key := "k", wake := 10, deferred := [Deferred.clearSchedule, Deferred.Remove] }] :=
  (AddWithTTL_pending_dedup
    ({ lru := { Cache := { size := 2, items := [("k", 1)], hasOnEvict := true, evictLog := [] },
                schedule := ["k"] },
       timers := [{ key := "k", wake := 10,
                    deferred := [Deferred.clearSchedule, Deferred.Remove] }],
       now := 1 } : Sys String Int) "k" 2 3600 (by decide) (by decide)).1

end Dedup

section Expiry

variable {K V : Type} [DecidableEq K]

theorem keyLog_onEvict (k : K) (c : Cache K V) (e : K × V) :
    (c.onEvict e).hasOnEvict = true →
      keyLog k (c.onEvict e) = if e.1 = k then e :: keyLog k c else keyLog k c := by
  intro h
  rw [Cache.onEvict_hasOnEvict] at h
  by_cases he : e.1 = k
  · simp [keyLog, Cache.onEvict, h, he, List.filter_cons]
  · simp [keyLog, Cache.onEvict, h, he, List.filter_cons]

theorem hlru.Cache.removeOldest_hasOnEvict (c : Cache K V) :
    c.removeOldest.hasOnEvict = c.hasOnEvict := by
  unfold Cache.removeOldest
  split
  · simp [Cache.onEvict_hasOnEvict]
  · rfl

theorem hlru.Cache.Add_hasOnEvict (c : Cache K V) (k : K) (v : V) :
    (c.Add k v).2.hasOnEvict = c.hasOnEvict := by
  unfold Cache.Add
  split
  · rfl
  · dsimp only
    split
    · simp [Cache.removeOldest_hasOnEvict]
    · rfl

theorem hlru.Cache.Get_hasOnEvict (c : Cache K V) (k : K) :
    (c.Get k).2.hasOnEvict = c.hasOnEvict := by
  unfold Cache.Get
  split <;> rfl

theorem hlru.Cache.Remove_hasOnEvict (c : Cache K V) (k : K) :
    (c.Remove k).2.hasOnEvict = c.hasOnEvict := by
  unfold Cache.Remove
  split
  · simp [Cache.onEvict_hasOnEvict]
  · rfl

theorem removeOldest_tracked (k : K) (v : V) (base : List (K × V)) (c : Cache K V)
    (h : Tracked k v base c) : Tracked k v base c.removeOldest := by
  unfold Cache.removeOldest
  cases hL : c.items.getLast? with
  | none => exact h
  | some e =>
    have hsplit : c.items.dropLast ++ [e] = c.items :=
      List.dropLast_append_getLast? e (by simp [hL])
    have hK : keyItems k c
        = c.items.dropLast.filter (fun x => decide (x.1 = k))
          ++ [e].filter (fun x => decide (x.1 = k)) := by
      unfold keyItems
      rw [← List.filter_append, hsplit]
    have hI : keyItems k (({ c with items := c.items.dropLast } : Cache K V).onEvict e)
        = c.items.dropLast.filter (fun x => decide (x.1 = k)) := by
      simp [keyItems, Cache.onEvict_items]
    have hcb : (({ c with items := c.items.dropLast } : Cache K V).onEvict e).hasOnEvict
        = c.hasOnEvict := by
      simp [Cache.onEvict_hasOnEvict]
    have hlog : (({ c with items := c.items.dropLast } : Cache K V).onEvict e).hasOnEvict = true →
        keyLog k (({ c with items := c.items.dropLast } : Cache K V).onEvict e)
          = if e.1 = k then e :: keyLog k c else keyLog k c := by
      intro hh
      rw [keyLog_onEvict k _ e hh]
      rfl
    by_cases he : e.1 = k
    · have hfe : [e].filter (fun x => decide (x.1 = k)) = [e] := by simp [he]
      rw [hfe] at hK
      rcases h with ⟨h1, h2⟩ | ⟨h1, _⟩
      · rw [hK] at h1
        cases hdl : c.items.dropLast.filter (fun x => decide (x.1 = k)) with
        | nil =>
          rw [hdl] at h1
          simp only [List.nil_append, List.cons.injEq, and_true] at h1
          refine Or.inr ⟨by rw [hI, hdl], ?_⟩
          intro hh
          rw [hlog hh, if_pos he, h1]
          rw [hcb] at hh
          rw [h2 hh]
        | cons x xs =>
          rw [hdl] at h1
          simp at h1
      · rw [hK] at h1
        simp at h1
    · have hfe : [e].filter (fun x => decide (x.1 = k)) = [] := by simp [he]
      rw [hfe, List.append_nil] at hK
      rcases h with ⟨h1, h2⟩ | ⟨h1, h2⟩
      · refine Or.inl ⟨by rw [hI, ← hK, h1], ?_⟩
        intro hh
        rw [hlog hh, if_neg he]
        rw [hcb] at hh
        exact h2 hh
      · refine Or.inr ⟨by rw [hI, ← hK, h1], ?_⟩
        intro hh
        rw [hlog hh, if_neg he]
        rw [hcb] at hh
        exact h2 hh

theorem filter_key_filter_ne (items : List (K × V)) (k k1 : K) (h : k1 ≠ k) :
    (items.filter (fun x => !decide (x.1 = k1))).filter (fun e => decide (e.1 = k))
      = items.filter (fun e => decide (e.1 = k)) := by
  rw [List.filter_filter]
  apply List.filter_congr
  intro x _
  by_cases hx : x.1 = k
  · have : ¬ k = k1 := fun h1 => h h1.symm
    simp [hx, this]
  · simp [hx]

theorem tracked_of_eq (k : K) (v : V) (base : List (K × V)) (c c1 : Cache K V)
    (hi : keyItems k c1 = keyItems k c) (hl : keyLog k c1 = keyLog k c)
    (hcb : c1.hasOnEvict = c.hasOnEvict) (h : Tracked k v base c) : Tracked k v base c1 := by
  unfold Tracked at *
  rw [hi, hl, hcb]
  exact h

theorem Add_other_tracked (k : K) (v : V) (base : List (K × V)) (c : Cache K V) (k1 : K) (v1 : V)
    (hne : k1 ≠ k) (h : Tracked k v base c) : Tracked k v base (c.Add k1 v1).2 := by
  unfold Cache.Add
  split
  · refine tracked_of_eq k v base c _ ?_ rfl rfl h
    simp only [keyItems, List.filter_cons, hne, decide_False, Bool.false_eq_true, if_false]
    exact filter_key_filter_ne c.items k k1 hne
  · have h1 : Tracked k v base ({ c with items := (k1, v1) :: c.items } : Cache K V) := by
      refine tracked_of_eq k v base c _ ?_ rfl rfl h
      simp [keyItems, List.filter_cons, hne]
    dsimp only
    split
    · exact removeOldest_tracked k v base _ h1
    · exact h1

theorem Get_other_tracked (k : K) (v : V) (base : List (K × V)) (c : Cache K V) (k1 : K)
    (hne : k1 ≠ k) (h : Tracked k v base c) : Tracked k v base (c.Get k1).2 := by
  unfold Cache.Get
  split
  · rename_i e he
    have hp := List.find?_some he
    have hek : e.1 = k1 := by simpa using hp
    have hek2 : ¬ e.1 = k := fun h1 => hne (hek.symm.trans h1)
    refine tracked_of_eq k v base c _ ?_ rfl rfl h
    simp only [keyItems, List.filter_cons, hek2, decide_False, Bool.false_eq_true, if_false]
    exact filter_key_filter_ne c.items k k1 hne
  · exact h

theorem Remove_other_tracked (k : K) (v : V) (base : List (K × V)) (c : Cache K V) (k1 : K)
    (hne : k1 ≠ k) (h : Tracked k v base c) : Tracked k v base (c.Remove k1).2 := by
  unfold Cache.Remove
  split
  · rename_i e he
    have hp := List.find?_some he
    have hek : e.1 = k1 := by simpa using hp
    have hek2 : ¬ e.1 = k := fun h1 => hne (hek.symm.trans h1)
    have hi : keyItems k
        (({ c with items := c.items.filter (fun x => !decide (x.1 = k1)) } : Cache K V).onEvict e)
        = keyItems k c := by
      simp only [keyItems, Cache.onEvict_items]
      exact filter_key_filter_ne c.items k k1 hne
    have hcb : (({ c with items := c.items.filter (fun x => !decide (x.1 = k1)) }
        : Cache K V).onEvict e).hasOnEvict = c.hasOnEvict := by
      simp [Cache.onEvict_hasOnEvict]
    unfold Tracked at *
    rw [hi, hcb]
    rcases h with ⟨h1, h2⟩ | ⟨h1, h2⟩
    · refine Or.inl ⟨h1, fun hh => ?_⟩
      rw [keyLog_onEvict k _ e (by rw [hcb]; exact hh), if_neg hek2]
      exact h2 hh
    · refine Or.inr ⟨h1, fun hh => ?_⟩
      rw [keyLog_onEvict k _ e (by rw [hcb]; exact hh), if_neg hek2]
      exact h2 hh
  · exact h

theorem filter_key_of_any_false (items : List (K × V)) (k : K)
    (h : ¬ items.any (fun e => decide (e.1 = k)) = true) :
    items.filter (fun e => decide (e.1 = k)) = [] := by
  apply List.filter_eq_nil_iff.mpr
  intro a ha hp
  exact h (List.any_eq_true.mpr ⟨a, ha, hp⟩)

theorem Add_self_tracked (k : K) (v : V) (c : Cache K V) :
    Tracked k v (keyLog k c) (c.Add k v).2 := by
  unfold Cache.Add
  split
  · refine Or.inl ⟨?_, fun _ => rfl⟩
    simp only [keyItems, List.filter_cons, decide_True, if_true, List.cons.injEq, true_and]
    apply List.filter_eq_nil_iff.mpr
    intro a ha hp
    have := (List.mem_filter.mp ha).2
    simp only [decide_eq_true_eq] at hp
    simp [hp] at this
  · rename_i hc
    have h1 : Tracked k v (keyLog k c) ({ c with items := (k, v) :: c.items } : Cache K V) := by
      refine Or.inl ⟨?_, fun _ => rfl⟩
      simp only [keyItems, List.filter_cons, decide_True, if_true, List.cons.injEq, true_and]
      exact filter_key_of_any_false c.items k hc
    dsimp only
    split
    · exact removeOldest_tracked k v _ _ h1
    · exact h1

theorem find?_of_filter_singleton {α : Type} (p : α → Bool) (l : List α) (a : α)
    (h : l.filter p = [a]) : l.find? p = some a := by
  induction l with
  | nil => simp at h
  | cons x xs ih =>
    by_cases hx : p x = true
    · simp only [List.filter_cons, hx, if_true, List.cons.injEq] at h
      obtain ⟨rfl, _⟩ := h
      simp [List.find?_cons, hx]
    · simp only [List.filter_cons, hx, if_false] at h
      simp only [List.find?_cons]
      simp only [Bool.not_eq_true] at hx
      rw [hx]
      exact ih h

theorem find?_of_filter_nil {α : Type} (p : α → Bool) (l : List α)
    (h : l.filter p = []) : l.find? p = none := by
  apply List.find?_eq_none.mpr
  intro x hx hp
  have := List.filter_eq_nil_iff.mp h x hx
  exact this hp

theorem Remove_self_tracked (k : K) (v : V) (base : List (K × V)) (c : Cache K V)
    (h : Tracked k v base c) :
    keyItems k (c.Remove k).2 = [] ∧
      ((c.Remove k).2.hasOnEvict = true → keyLog k (c.Remove k).2 = (k, v) :: base) := by
  rcases h with ⟨h1, h2⟩ | ⟨h1, h2⟩
  · have hf := find?_of_filter_singleton _ c.items (k, v) h1
    have hR : (c.Remove k).2 =
        ({ c with items := c.items.filter (fun x => !decide (x.1 = k)) } : Cache K V).onEvict
          (k, v) := by
      simp [Cache.Remove, hf]
    rw [hR]
    constructor
    · simp only [keyItems, Cache.onEvict_items]
      apply List.filter_eq_nil_iff.mpr
      intro a ha hp
      have := (List.mem_filter.mp ha).2
      simp only [decide_eq_true_eq] at hp
      simp [hp] at this
    · intro hh
      rw [keyLog_onEvict k _ (k, v) hh]
      simp only [if_true]
      rw [Cache.onEvict_hasOnEvict] at hh
      have := h2 hh
      simp only [keyLog] at this ⊢
      rw [this]
  · have hf := find?_of_filter_nil _ c.items h1
    have hR : (c.Remove k).2 = c := by
      simp [Cache.Remove, hf]
    rw [hR]
    exact ⟨h1, h2⟩

theorem arm_of_not_mem (s : Sys K V) (key : K) (ttl : Int) (h : key ∉ s.lru.schedule) :
    arm s key ttl =
      { s with lru := { s.lru with schedule := key :: s.lru.schedule }
               timers := s.timers ++ [expiryTimer key s.now ttl] } := by
  simp [arm, h]

theorem arm_of_mem (s : Sys K V) (key : K) (ttl : Int) (h : key ∈ s.lru.schedule) :
    arm s key ttl = s := by
  simp [arm, h]

theorem AddWithTTL_timers (s : Sys K V) (key : K) (value : V) (ttl : Int) :
    (AddWithTTL s key value ttl).2.timers = (arm s key ttl).timers := rfl

theorem AddWithTTL_schedule (s : Sys K V) (key : K) (value : V) (ttl : Int) :
    (AddWithTTL s key value ttl).2.lru.schedule = (arm s key ttl).lru.schedule := rfl

theorem quiet_step (k : K) (v : V) (base : List (K × V)) (s s1 : Sys K V) (a : Action K V)
    (hq : a.touches s k = false) (hs : step s a = some s1) :
    (Tracked k v base s.lru.Cache → Tracked k v base s1.lru.Cache) ∧
    (k ∈ s1.lru.schedule ↔ k ∈ s.lru.schedule) ∧
    (∀ (i : Nat) (t : Timer K), s.timers[i]? = some t → t.key = k → s1.timers[i]? = some t) := by
  cases a with
  | Add key value =>
    simp only [step, Option.some.injEq] at hs
    subst hs
    have hne : key ≠ k := by simpa [Action.touches] using hq
    exact ⟨Add_other_tracked k v base _ key value hne, Iff.rfl, fun _ _ h _ => h⟩
  | Get key =>
    simp only [step, Option.some.injEq] at hs
    subst hs
    have hne : key ≠ k := by simpa [Action.touches] using hq
    exact ⟨Get_other_tracked k v base _ key hne, Iff.rfl, fun _ _ h _ => h⟩
  | Remove key =>
    simp only [step, Option.some.injEq] at hs
    subst hs
    have hne : key ≠ k := by simpa [Action.touches] using hq
    exact ⟨Remove_other_tracked k v base _ key hne, Iff.rfl, fun _ _ h _ => h⟩
  | AddWithTTL key value ttl =>
    simp only [step, Option.some.injEq] at hs
    subst hs
    have hne : key ≠ k := by simpa [Action.touches] using hq
    have hne2 : ¬ k = key := fun h => hne h.symm
    refine ⟨?_, ?_, ?_⟩
    · rw [AddWithTTL_Cache s key value ttl]
      exact Add_other_tracked k v base _ key value hne
    · rw [AddWithTTL_schedule]
      by_cases hc : key ∈ s.lru.schedule
      · rw [arm_of_mem s key ttl hc]
      · rw [arm_of_not_mem s key ttl hc]
        simp [hne2]
    · intro i t ht _
      rw [AddWithTTL_timers]
      by_cases hc : key ∈ s.lru.schedule
      · rw [arm_of_mem s key ttl hc]
        exact ht
      · obtain ⟨hi, _⟩ := List.getElem?_eq_some.mp ht
        rw [arm_of_not_mem s key ttl hc]
        simp only
        rw [List.getElem?_append_left hi]
        exact ht
  | tick d =>
    simp only [step, Option.some.injEq] at hs
    subst hs
    exact ⟨fun h => h, Iff.rfl, fun _ _ h _ => h⟩
  | timer j =>
    obtain ⟨tj, d, rest, htj, _, _, rfl⟩ := step_timer_inv s s1 j hs
    have hne : tj.key ≠ k := by simpa [Action.touches, htj] using hq
    have hne2 : ¬ k = tj.key := fun h => hne h.symm
    refine ⟨?_, ?_, ?_⟩
    · cases d with
      | Remove => exact Remove_other_tracked k v base _ tj.key hne
      | clearSchedule => exact fun h => h
    · cases d with
      | Remove => exact Iff.rfl
      | clearSchedule => simp [runDeferred, clearSchedule, List.mem_filter, hne2]
    · intro i t ht hk
      have hij : j ≠ i := by
        intro hji
        subst hji
        rw [htj] at ht
        simp only [Option.some.injEq] at ht
        subst ht
        exact hne hk
      simp only [List.getElem?_set, hij, if_false]
      exact ht

theorem quiet_run (k : K) (v : V) (base : List (K × V)) (acts : List (Action K V))
    (s s1 : Sys K V) (hq : quiet k s acts = true) (hs : run s acts = some s1) :
    (Tracked k v base s.lru.Cache → Tracked k v base s1.lru.Cache) ∧
    (k ∈ s1.lru.schedule ↔ k ∈ s.lru.schedule) ∧
    (∀ (i : Nat) (t : Timer K), s.timers[i]? = some t → t.key = k → s1.timers[i]? = some t) := by
  induction acts generalizing s with
  | nil =>
    simp only [run, Option.some.injEq] at hs
    subst hs
    exact ⟨fun h => h, Iff.rfl, fun _ _ h _ => h⟩
  | cons a rest ih =>
    obtain ⟨s2, h1, h2⟩ := run_cons_inv s s1 a rest hs
    simp only [quiet, h1, Bool.and_eq_true, Bool.not_eq_true'] at hq
    have hstep := quiet_step k v base s s2 a hq.1 h1
    have hrest := ih s2 hq.2 h2
    exact ⟨fun h => hrest.1 (hstep.1 h), hrest.2.1.trans hstep.2.1,
      fun i t ht hk => hrest.2.2 i t (hstep.2.2 i t ht hk) hk⟩

theorem keyItems_nil_absent (k : K) (c : Cache K V) (h : keyItems k c = []) :
    c.Contains k = false ∧ (c.Get k).1 = none ∧ c.Peek k = none := by
  have hf := find?_of_filter_nil _ c.items h
  refine ⟨?_, by simp [Cache.Get, hf], by simp [Cache.Peek, hf]⟩
  unfold Cache.Contains
  apply List.any_eq_false.mpr
  intro x hx
  exact List.filter_eq_nil_iff.mp h x hx

theorem Remove_of_not_Contains (k : K) (c : Cache K V) (h : c.Contains k = false) :
    c.Remove k = (false, c) := by
  have hf : c.items.find? (fun e => decide (e.1 = k)) = none := by
    apply List.find?_eq_none.mpr
    intro x hx
    exact List.any_eq_false.mp h x hx
  simp [Cache.Remove, hf]

/-- C1: let `AddWithTTL k v ttl` arm a timer (`k` was not pending), let only steps
that do not work on `k` run before the timer's `clearSchedule`, and between it
and the timer's `Cache.Remove`. Then afterwards `Get(k)`, `Contains(k)` and
`Peek(k)` report not-found, `k` is not in the schedule map, the timer is finished,
and a configured callback has run for `k` exactly once since the call, with
`(k, v)` (at the capacity eviction if `k` was evicted early, else at the fire).
A `Cache.Remove(k)` on a store that no longer holds `k` changes nothing and
invokes no callback. -/
theorem ttl_removal_on_fire (s : Sys K V) (k : K) (v : V) (ttl : Int)
    (before between : List (Action K V)) (s1 s2 s3 s4 : Sys K V)
    (harm : k ∉ s.lru.schedule)
    (hq1 : quiet k (AddWithTTL s k v ttl).2 before = true)
    (hrun1 : run (AddWithTTL s k v ttl).2 before = some s1)
    (hclear : step s1 (Action.timer s.timers.length) = some s2)
    (hq2 : quiet k s2 between = true)
    (hrun2 : run s2 between = some s3)
    (hremove : step s3 (Action.timer s.timers.length) = some s4) :
    (s4.lru.Cache.Get k).1 = none ∧ s4.lru.Cache.Contains k = false ∧
    s4.lru.Cache.Peek k = none ∧ k ∉ s4.lru.schedule ∧
    s4.timers[s.timers.length]? = some { key := k, wake := s.now + ttl.toNat, deferred := [] } ∧
    (s4.lru.Cache.hasOnEvict = true →
      s4.lru.Cache.evictLog.filter (fun e => decide (e.1 = k))
        = (k, v) :: s.lru.Cache.evictLog.filter (fun e => decide (e.1 = k))) ∧
    (s3.lru.Cache.Contains k = false → s4.lru.Cache = s3.lru.Cache) ∧
    (∀ c : Cache K V, c.Contains k = false → c.Remove k = (false, c)) := by
  -- the state right after the call
  have hc : ¬ (s.lru.schedule.contains k = true) := by simpa using harm
  have h0T : (AddWithTTL s k v ttl).2.timers[s.timers.length]?
      = some (expiryTimer k s.now ttl) := by
    rw [AddWithTTL_timers, arm_of_not_mem s k ttl harm]
    simp
  have h0C : Tracked k v (keyLog k s.lru.Cache) (AddWithTTL s k v ttl).2.lru.Cache := by
    rw [AddWithTTL_Cache s k v ttl]
    exact Add_self_tracked k v s.lru.Cache
  -- up to the timer's first deferred call
  have hA := quiet_run k v (keyLog k s.lru.Cache) before _ s1 hq1 hrun1
  have h1T := hA.2.2 _ _ h0T rfl
  have h1C := hA.1 h0C
  obtain ⟨t, d, rest, ht, _, hd, rfl⟩ := step_timer_inv s1 s2 _ hclear
  rw [h1T] at ht
  simp only [Option.some.injEq] at ht
  subst ht
  simp only [expiryTimer, List.cons.injEq] at hd
  obtain ⟨rfl, rfl⟩ := hd
  -- between the two deferred calls
  have hB := quiet_run k v (keyLog k s.lru.Cache) between _ s3 hq2 hrun2
  have h2T := hB.2.2 (s.timers.length)
    { key := k, wake := s.now + ttl.toNat, deferred := [Deferred.Remove] }
    (getElem?_set_self_some _ _ _ _ h1T) rfl
  have h2C := hB.1 h1C
  have h2S : k ∉ s3.lru.schedule := by
    rw [hB.2.1]
    simp [runDeferred, clearSchedule, expiryTimer, List.mem_filter]
  -- the timer's second deferred call
  obtain ⟨t, d, rest, ht, _, hd, rfl⟩ := step_timer_inv s3 s4 _ hremove
  rw [h2T] at ht
  simp only [Option.some.injEq] at ht
  subst ht
  simp only [List.cons.injEq] at hd
  obtain ⟨rfl, rfl⟩ := hd
  have hR := Remove_self_tracked k v _ _ h2C
  have hAbs := keyItems_nil_absent k _ hR.1
  refine ⟨hAbs.2.1, hAbs.1, hAbs.2.2, h2S, getElem?_set_self_some _ _ _ _ h2T, hR.2, ?_,
    fun c h => Remove_of_not_Contains k c h⟩
  intro h
  simp only [runDeferred]
  rw [Remove_of_not_Contains k _ h]

/-- Witness for C1: capacity 1 with a callback; `"k"` is armed with ttl 5, its
mark is cleared at time 5, `Add("b",2)` then evicts it, and the timer's removal
finds it gone: one callback for `"k"`, with the value written by the call. -/
theorem ttl_removal_on_fire_witness :
    (({ lru := { Cache := { size := 1, items := [("b", 2)], hasOnEvict := true,
                            evictLog := [("k", 1)] },
                 schedule := [] },
        timers := [{ key := "k", wake := 5, deferred := [] }], now := 5 }
        : Sys String Int).lru.Cache.Get "k").1 = none ∧
    ({ lru := { Cache := { size := 1, items := [("b", 2)], hasOnEvict := true,
                           evictLog := [("k", 1)] },
                schedule := [] },
       timers := [{ key := "k", wake := 5, deferred := [] }], now := 5 }
        : Sys String Int).lru.Cache.evictLog.filter (fun e => decide (e.1 = "k"))
      = [("k", 1)] :=
  have h := ttl_removal_on_fire
    ({ lru := { Cache := { size := 1, items := [("k", 0)], hasOnEvict := true,
                           evictLog := [] },
                schedule := [] },
       timers := [], now := 0 }
        : Sys String Int) "k" 1 5
    [Action.tick 5] [Action.Add "b" 2]
    { lru := { Cache := { size := 1, items := [("k", 1)], hasOnEvict := true,
                          evictLog := [] },
               schedule := ["k"] },
      timers := [{ key := "k", wake := 5, deferred := [Deferred.clearSchedule, Deferred.Remove] }], now := 5 }
    { lru := { Cache := { size := 1, items := [("k", 1)], hasOnEvict := true,
                          evictLog := [] },
               schedule := [] },
      timers := [{ key := "k", wake := 5, deferred := [Deferred.Remove] }], now := 5 }
    { lru := { Cache := { size := 1, items := [("b", 2)], hasOnEvict := true,
                          evictLog := [("k", 1)] },
               schedule := [] },
      timers := [{ key := "k", wake := 5, deferred := [Deferred.Remove] }], now := 5 }
    { lru := { Cache := { size := 1, items := [("b", 2)], hasOnEvict := true,
                          evictLog := [("k", 1)] },
               schedule := [] },
      timers := [{ key := "k", wake := 5, deferred := [] }], now := 5 }
    (by decide) (by decide) (by decide) (by decide) (by decide) (by decide) (by decide)
  ⟨h.1, h.2.2.2.2.2.1 (by decide)⟩

end Expiry

section LockLevel

variable {K V : Type} [DecidableEq K]

theorem getElem?_set_append_cases {α : Type} (l extra : List α) (i j : Nat) (a u : α)
    (h : (l.set i a ++ extra)[j]? = some u) :
    (j = i ∧ u = a) ∨ (j ≠ i ∧ l[j]? = some u) ∨
      (l.length ≤ j ∧ extra[j - l.length]? = some u) := by
  by_cases hj : j < l.length
  · rw [List.getElem?_append_left (by simpa using hj), List.getElem?_set] at h
    by_cases hij : i = j
    · subst hij
      simp only [if_true, hj, Option.some.injEq] at h
      exact Or.inl ⟨rfl, h.symm⟩
    · simp only [hij, if_false] at h
      exact Or.inr (Or.inl ⟨fun e => hij e.symm, h⟩)
  · have hle : l.length ≤ j := by omega
    rw [List.getElem?_append_right (by simpa using hle)] at h
    simp only [List.length_set] at h
    exact Or.inr (Or.inr ⟨hle, h⟩)

theorem getElem?_set_append_ne {α : Type} (l extra : List α) (i j : Nat) (a u : α)
    (hj : j ≠ i) (h : l[j]? = some u) : (l.set i a ++ extra)[j]? = some u := by
  obtain ⟨hlt, _⟩ := List.getElem?_eq_some.mp h
  rw [List.getElem?_append_left (by simpa using hlt), List.getElem?_set]
  have hij : ¬ i = j := fun e => hj e.symm
  simp only [hij, if_false]
  exact h

theorem getElem?_set_append_self {α : Type} (l extra : List α) (i : Nat) (a : α)
    (hi : i < l.length) : (l.set i a ++ extra)[i]? = some a := by
  rw [List.getElem?_append_left (by simpa using hi), List.getElem?_set]
  simp [hi]

theorem goroutineCode_eq (key : K) (now : Nat) (ttl : Int) :
    (goroutineCode key now ttl : List (Instr V))
      = [Instr.lock, Instr.delete, Instr.unlock, Instr.cacheRemove] := rfl

theorem addWithTTLCode_eq (v : V) (ttl : Int) :
    addWithTTLCode v ttl = [Instr.lock, Instr.arm ttl, Instr.cacheAdd v, Instr.unlock] := rfl

theorem FineInv.of_same (s s1 : Fine K V) (ht : s1.threads = s.threads) (hm : s1.mutex = s.mutex)
    (h : FineInv s) : FineInv s1 := by
  constructor
  · intro j t hj
    rw [ht] at hj
    exact h.shape j t hj
  · intro j t hj
    rw [ht] at hj
    rw [hm]
    exact h.mutexOK j t hj
  · intro k hk
    rw [hm] at hk
    rw [ht]
    exact h.mutexLt k hk
  · intro j t p hj hp
    rw [ht] at hj ⊢
    exact h.link j t p hj hp

theorem FineInv.init (l : LruWithTTL K V) : FineInv (Fine.init l) := by
  constructor
  · intro j t hj
    simp [Fine.init] at hj
  · intro j t hj
    simp [Fine.init] at hj
  · intro k hk
    simp [Fine.init] at hk
  · intro j t p hj
    simp [Fine.init] at hj

theorem FineInv.call (s : Fine K V) (key : K) (v : V) (ttl : Int) (h : FineInv s) :
    FineInv ({ s with
      threads := s.threads ++
        [{ key := key, parent := none, wake := 0, prog := addWithTTLCode v ttl, pc := 0 }] }
      : Fine K V) := by
  have hlook : ∀ (j : Nat) (u : Thread K V),
      (s.threads ++ [({ key := key, parent := none, wake := 0, prog := addWithTTLCode v ttl,
                        pc := 0 } : Thread K V)])[j]? = some u →
      s.threads[j]? = some u ∨
        (j = s.threads.length ∧
          u = { key := key, parent := none, wake := 0, prog := addWithTTLCode v ttl, pc := 0 }) := by
    intro j u hj
    by_cases hlt : j < s.threads.length
    · rw [List.getElem?_append_left hlt] at hj
      exact Or.inl hj
    · rw [List.getElem?_append_right (by omega)] at hj
      cases hd : j - s.threads.length with
      | zero =>
        rw [hd] at hj
        simp only [List.getElem?_cons_zero, Option.some.injEq] at hj
        exact Or.inr ⟨by omega, hj.symm⟩
      | succ m =>
        rw [hd] at hj
        simp at hj
  constructor
  · intro j t hj
    rcases hlook j t hj with hj | ⟨_, rfl⟩
    · exact h.shape j t hj
    · exact ⟨by simp, Or.inl ⟨rfl, v, ttl, rfl⟩⟩
  · intro j t hj
    rcases hlook j t hj with hj | ⟨hjn, rfl⟩
    · exact h.mutexOK j t hj
    · constructor
      · intro hm
        have := h.mutexLt j hm
        omega
      · intro hc
        simp [Thread.inCritical] at hc
  · intro k hk
    have := h.mutexLt k hk
    simp only [List.length_append, List.length_singleton]
    omega
  · intro j t p hj hp
    rcases hlook j t hj with hj | ⟨_, rfl⟩
    · obtain ⟨c, hc, hrest⟩ := h.link j t p hj hp
      obtain ⟨hlt, _⟩ := List.getElem?_eq_some.mp hc
      exact ⟨c, by rw [List.getElem?_append_left hlt]; exact hc, hrest⟩
    · simp at hp

theorem FineInv.advance (s s1 : Fine K V) (i : Nat) (t : Thread K V)
    (extra : List (Thread K V)) (h : FineInv s) (ht : s.threads[i]? = some t) (hpc : t.pc < 4)
    (hthreads : s1.threads = s.threads.set i { t with pc := t.pc + 1 } ++ extra)
    (hextra : extra = [] ∨ (t.parent = none ∧ t.pc = 1 ∧ ∃ w, extra =
        [{ key := t.key, parent := some i, wake := w,
           prog := [Instr.lock, Instr.delete, Instr.unlock, Instr.cacheRemove], pc := 0 }]))
    (hmi : s1.mutex = some i ↔ (1 ≤ t.pc + 1 ∧ t.pc + 1 ≤ (if t.parent = none then 3 else 2)))
    (hmj : ∀ j, j ≠ i → (s1.mutex = some j ↔ s.mutex = some j))
    (hlock : t.pc = 0 → s.mutex = none) : FineInv s1 := by
  obtain ⟨hi, _⟩ := List.getElem?_eq_some.mp ht
  have hlook : ∀ (j : Nat) (u : Thread K V), s1.threads[j]? = some u →
      (j = i ∧ u = { t with pc := t.pc + 1 }) ∨ (j ≠ i ∧ s.threads[j]? = some u) ∨
      (j = s.threads.length ∧ t.parent = none ∧ t.pc = 1 ∧ ∃ w, u =
        { key := t.key, parent := some i, wake := w,
          prog := [Instr.lock, Instr.delete, Instr.unlock, Instr.cacheRemove], pc := 0 }) := by
    intro j u hj
    rw [hthreads] at hj
    rcases getElem?_set_append_cases _ _ _ _ _ _ hj with h1 | h1 | ⟨hle, h1⟩
    · exact Or.inl h1
    · exact Or.inr (Or.inl h1)
    · rcases hextra with he | ⟨hp, hq, w, he⟩
      · rw [he] at h1
        simp at h1
      · rw [he] at h1
        cases hd : j - s.threads.length with
        | zero =>
          rw [hd] at h1
          simp only [List.getElem?_cons_zero, Option.some.injEq] at h1
          exact Or.inr (Or.inr ⟨by omega, hp, hq, w, h1.symm⟩)
        | succ m =>
          rw [hd] at h1
          simp at h1
  have hself : s1.threads[i]? = some { t with pc := t.pc + 1 } := by
    rw [hthreads]
    exact getElem?_set_append_self _ _ _ _ hi
  have hother : ∀ (j : Nat) (u : Thread K V), j ≠ i → s.threads[j]? = some u →
      s1.threads[j]? = some u := by
    intro j u hj hu
    rw [hthreads]
    exact getElem?_set_append_ne _ _ _ _ _ _ hj hu
  have hlen : s.threads.length ≤ s1.threads.length := by
    rw [hthreads]
    simp
  constructor
  · intro j u hj
    rcases hlook j u hj with ⟨_, rfl⟩ | ⟨_, hu⟩ | ⟨_, _, _, w, rfl⟩
    · have := h.shape i t ht
      exact ⟨by simp only; omega, this.2⟩
    · exact h.shape j u hu
    · exact ⟨by simp, Or.inr ⟨by simp, rfl⟩⟩
  · intro j u hj
    rcases hlook j u hj with ⟨rfl, rfl⟩ | ⟨hji, hu⟩ | ⟨hjn, _, _, w, rfl⟩
    · simpa [Thread.inCritical] using hmi
    · rw [hmj j hji]
      exact h.mutexOK j u hu
    · have hji : j ≠ i := by omega
      rw [hmj j hji]
      constructor
      · intro hm
        have := h.mutexLt j hm
        omega
      · intro hc
        simp [Thread.inCritical] at hc
  · intro k hk
    by_cases hki : k = i
    · omega
    · have := h.mutexLt k ((hmj k hki).mp hk)
      omega
  · intro j u p hj hp
    rcases hlook j u hj with ⟨rfl, rfl⟩ | ⟨hji, hu⟩ | ⟨hjn, hpar, hq, w, rfl⟩
    · obtain ⟨c, hc, hcp, hck, hc2, hc4⟩ := h.link j t p ht hp
      have hpj : p ≠ j := by
        intro e
        subst e
        rw [ht] at hc
        simp only [Option.some.injEq] at hc
        subst hc
        rw [hcp] at hp
        simp at hp
      refine ⟨c, hother p c hpj hc, hcp, hck, hc2, ?_⟩
      intro _
      by_cases h0 : t.pc = 0
      · have hm := hlock h0
        have hnc : ¬ c.inCritical := by
          intro hcr
          have := (h.mutexOK p c hc).mpr hcr
          rw [hm] at this
          simp at this
        have hle := (h.shape p c hc).1
        simp only [Thread.inCritical, hcp, if_true, not_and, not_le] at hnc
        have := hnc (by omega)
        omega
      · exact hc4 (by omega)
    · obtain ⟨c, hc, hcp, hck, hc2, hc4⟩ := h.link j u p hu hp
      by_cases hpi : p = i
      · subst hpi
        rw [ht] at hc
        simp only [Option.some.injEq] at hc
        subst hc
        refine ⟨_, hself, hcp, hck, by simp only; omega, ?_⟩
        intro h1
        have := hc4 h1
        omega
      · exact ⟨c, hother p c hpi hc, hcp, hck, hc2, hc4⟩
    · simp only [Option.some.injEq] at hp
      subst hp
      refine ⟨_, hself, hpar, rfl, by simp only; omega, ?_⟩
      intro h1
      simp at h1

theorem fetch_cases (t : Thread K V) (ins : Instr V)
    (hshape : t.pc ≤ 4 ∧
      ((t.parent = none ∧ ∃ v ttl,
          t.prog = [Instr.lock, Instr.arm ttl, Instr.cacheAdd v, Instr.unlock]) ∨
       (t.parent ≠ none ∧
          t.prog = [Instr.lock, Instr.delete, Instr.unlock, Instr.cacheRemove])))
    (hf : t.prog[t.pc]? = some ins) :
    (ins = Instr.lock ∧ t.pc = 0) ∨
    (∃ ttl, ins = Instr.arm ttl ∧ t.parent = none ∧ t.pc = 1) ∨
    (∃ v, ins = Instr.cacheAdd v ∧ t.parent = none ∧ t.pc = 2) ∨
    (ins = Instr.unlock ∧ t.parent = none ∧ t.pc = 3) ∨
    (ins = Instr.delete ∧ t.parent ≠ none ∧ t.pc = 1) ∨
    (ins = Instr.unlock ∧ t.parent ≠ none ∧ t.pc = 2) ∨
    (ins = Instr.cacheRemove ∧ t.parent ≠ none ∧ t.pc = 3) := by
  obtain ⟨hle, hs⟩ := hshape
  rcases hs with ⟨hp, v, ttl, hprog⟩ | ⟨hp, hprog⟩
  · rw [hprog] at hf
    match hpc : t.pc with
    | 0 => rw [hpc] at hf; simp at hf; exact Or.inl ⟨hf.symm, rfl⟩
    | 1 => rw [hpc] at hf; simp at hf; exact Or.inr (Or.inl ⟨ttl, hf.symm, hp, rfl⟩)
    | 2 => rw [hpc] at hf; simp at hf; exact Or.inr (Or.inr (Or.inl ⟨v, hf.symm, hp, rfl⟩))
    | 3 =>
      rw [hpc] at hf; simp at hf
      exact Or.inr (Or.inr (Or.inr (Or.inl ⟨hf.symm, hp, rfl⟩)))
    | n + 4 => rw [hpc] at hf; simp at hf
  · rw [hprog] at hf
    match hpc : t.pc with
    | 0 => rw [hpc] at hf; simp at hf; exact Or.inl ⟨hf.symm, rfl⟩
    | 1 =>
      rw [hpc] at hf; simp at hf
      exact Or.inr (Or.inr (Or.inr (Or.inr (Or.inl ⟨hf.symm, hp, rfl⟩))))
    | 2 =>
      rw [hpc] at hf; simp at hf
      exact Or.inr (Or.inr (Or.inr (Or.inr (Or.inr (Or.inl ⟨hf.symm, hp, rfl⟩)))))
    | 3 =>
      rw [hpc] at hf; simp at hf
      exact Or.inr (Or.inr (Or.inr (Or.inr (Or.inr (Or.inr ⟨hf.symm, hp, rfl⟩)))))
    | n + 4 => rw [hpc] at hf; simp at hf

theorem Fine.step_thread_inv (s s1 : Fine K V) (i : Nat)
    (hs : s.step (FAction.thread i) = some s1) :
    ∃ t ins, s.threads[i]? = some t ∧ t.wake ≤ s.now ∧ t.prog[t.pc]? = some ins ∧
      s.exec i t ins = some s1 := by
  simp only [Fine.step] at hs
  split at hs
  · simp at hs
  · rename_i t ht
    split at hs
    · simp at hs
    · rename_i hw
      split at hs
      · simp at hs
      · rename_i ins hi
        exact ⟨t, ins, ht, by omega, hi, hs⟩

theorem FineInv.step (s s1 : Fine K V) (a : FAction K V) (hs : s.step a = some s1)
    (h : FineInv s) : FineInv s1 := by
  cases a with
  | call key value ttl =>
    simp only [Fine.step, Option.some.injEq] at hs
    subst hs
    exact FineInv.call s key value ttl h
  | tick d =>
    simp only [Fine.step, Option.some.injEq] at hs
    subst hs
    exact FineInv.of_same s _ rfl rfl h
  | Add key value =>
    simp only [Fine.step, Option.some.injEq] at hs
    subst hs
    exact FineInv.of_same s _ rfl rfl h
  | Get key =>
    simp only [Fine.step, Option.some.injEq] at hs
    subst hs
    exact FineInv.of_same s _ rfl rfl h
  | Remove key =>
    simp only [Fine.step, Option.some.injEq] at hs
    subst hs
    exact FineInv.of_same s _ rfl rfl h
  | thread i =>
    obtain ⟨t, ins, ht, _, hf, he⟩ := Fine.step_thread_inv s s1 i hs
    have hsh := h.shape i t ht
    have hmu := h.mutexOK i t ht
    rcases fetch_cases t ins hsh hf with ⟨rfl, hpc⟩ | ⟨ttl, rfl, hp, hpc⟩ | ⟨v, rfl, hp, hpc⟩ |
      ⟨rfl, hp, hpc⟩ | ⟨rfl, hp, hpc⟩ | ⟨rfl, hp, hpc⟩ | ⟨rfl, hp, hpc⟩
    · -- Lock
      simp only [Fine.exec] at he
      split at he
      · rename_i hm
        simp only [Option.some.injEq] at he
        subst he
        refine FineInv.advance s _ i t [] h ht (by omega) (by simp [Fine.advance]) (Or.inl rfl)
          ?_ ?_ (fun _ => hm)
        · simp only [true_iff]
          split <;> omega
        · intro j hj
          simp only [hm, Option.some.injEq]
          constructor
          · intro e
            exact absurd e.symm hj
          · intro e
            simp at e
      · simp at he
    · -- the schedule handling
      have hm : s.mutex = some i := hmu.mpr (by simp [Thread.inCritical, hpc, hp])
      simp only [Fine.exec] at he
      split at he
      · simp only [Option.some.injEq] at he
        subst he
        refine FineInv.advance s _ i t [] h ht (by omega) (by simp [Fine.advance]) (Or.inl rfl)
          ?_ (fun _ _ => Iff.rfl) (fun h0 => by omega)
        simp only [hm, true_iff, hp, if_true]
        omega
      · simp only [Option.some.injEq] at he
        subst he
        refine FineInv.advance s _ i t _ h ht (by omega) rfl
          (Or.inr ⟨hp, hpc, s.now + ttl.toNat, rfl⟩)
          ?_ (fun _ _ => Iff.rfl) (fun h0 => by omega)
        simp only [hm, true_iff, hp, if_true]
        omega
    · -- Cache.Add
      have hm : s.mutex = some i := hmu.mpr (by simp [Thread.inCritical, hpc, hp])
      simp only [Fine.exec, Option.some.injEq] at he
      subst he
      refine FineInv.advance s _ i t [] h ht (by omega) (by simp [Fine.advance]) (Or.inl rfl)
        ?_ (fun _ _ => Iff.rfl) (fun h0 => by omega)
      simp only [hm, true_iff, hp, if_true]
      omega
    · -- Unlock at the end of AddWithTTL
      simp only [Fine.exec] at he
      split at he
      · rename_i hm
        simp only [Option.some.injEq] at he
        subst he
        refine FineInv.advance s _ i t [] h ht (by omega) (by simp [Fine.advance]) (Or.inl rfl)
          ?_ ?_ (fun h0 => by omega)
        · simp only [hp, if_true]
          constructor
          · intro e
            simp at e
          · intro e
            omega
        · intro j hj
          simp only [hm, Option.some.injEq]
          constructor
          · intro e
            simp at e
          · intro e
            exact absurd e.symm hj
      · simp at he
    · -- delete
      have hm : s.mutex = some i := hmu.mpr (by simp [Thread.inCritical, hpc, hp])
      simp only [Fine.exec, Option.some.injEq] at he
      subst he
      refine FineInv.advance s _ i t [] h ht (by omega) (by simp [Fine.advance]) (Or.inl rfl)
        ?_ (fun _ _ => Iff.rfl) (fun h0 => by omega)
      simp only [hm, true_iff, hp, if_false]
      omega
    · -- Unlock at the end of clearSchedule
      simp only [Fine.exec] at he
      split at he
      · rename_i hm
        simp only [Option.some.injEq] at he
        subst he
        refine FineInv.advance s _ i t [] h ht (by omega) (by simp [Fine.advance]) (Or.inl rfl)
          ?_ ?_ (fun h0 => by omega)
        · simp only [hp, if_false]
          constructor
          · intro e
            simp at e
          · intro e
            omega
        · intro j hj
          simp only [hm, Option.some.injEq]
          constructor
          · intro e
            simp at e
          · intro e
            exact absurd e.symm hj
      · simp at he
    · -- Cache.Remove
      have hm : ¬ s.mutex = some i := by
        intro e
        have := hmu.mp e
        simp only [Thread.inCritical, hp, if_false] at this
        omega
      simp only [Fine.exec, Option.some.injEq] at he
      subst he
      refine FineInv.advance s _ i t [] h ht (by omega) (by simp [Fine.advance]) (Or.inl rfl)
        ?_ (fun _ _ => Iff.rfl) (fun h0 => by omega)
      simp only [hp, if_false]
      constructor
      · intro e
        exact absurd e hm
      · intro e
        omega

theorem FineInv.run (acts : List (FAction K V)) (s s1 : Fine K V) (hs : s.run acts = some s1)
    (h : FineInv s) : FineInv s1 := by
  induction acts generalizing s with
  | nil =>
    simp only [Fine.run, Option.some.injEq] at hs
    subst hs
    exact h
  | cons a rest ih =>
    simp only [Fine.run] at hs
    cases hst : s.step a with
    | none => simp [hst] at hs
    | some s2 =>
      rw [hst] at hs
      simp only [Option.some_bind] at hs
      exact ih s2 hs (FineInv.step s s2 a hst h)

theorem past_any_pos (t : Thread K V) (q : Instr V → Bool) (h : t.past.any q = true) :
    1 ≤ t.pc := by
  by_contra hc
  have h0 : t.pc = 0 := by omega
  simp [Thread.past, h0] at h

/-- C10: in every state of the lock-level model reachable from a fresh cache, for
every expiry goroutine (whatever its ttl, zero included) the `AddWithTTL` call
that started it exists and is for the same key; once the goroutine has acquired
`scheduleMutex` (in `clearSchedule`) that call has returned, and once the
goroutine has run its `Cache.Remove` that call has run its `Cache.Add`. -/
theorem removal_after_arming_add (l : LruWithTTL K V) (acts : List (FAction K V))
    (s : Fine K V) (j p : Nat) (g : Thread K V)
    (hrun : (Fine.init l).run acts = some s)
    (hg : s.threads[j]? = some g) (hp : g.parent = some p) :
    ∃ c, s.threads[p]? = some c ∧ c.parent = none ∧ c.key = g.key ∧
      (g.lockDone = true → c.finished = true) ∧
      (g.removeDone = true → c.addDone = true) := by
  have hinv := FineInv.run acts _ s hrun (FineInv.init l)
  obtain ⟨c, hc, hcp, hck, _, hc4⟩ := hinv.link j g p hg hp
  have hshape := (hinv.shape p c hc).2
  rcases hshape with ⟨_, v, ttl, hprog⟩ | ⟨hne, _⟩
  · refine ⟨c, hc, hcp, hck, ?_, ?_⟩
    · intro hl
      have := hc4 (past_any_pos g _ hl)
      simp [Thread.finished, hprog, this]
    · intro hr
      have := hc4 (past_any_pos g _ hr)
      simp [Thread.addDone, Thread.past, hprog, this]
  · exact absurd hcp hne

/-- Witness for C10: a call with ttl 0 runs to its end, then its goroutine runs
to its end; the goroutine is thread 1 and its parent is thread 0. -/
theorem removal_after_arming_add_witness :
    ∃ c : Thread String Int,
      ([{ key := "a", parent := none, wake := 0, prog := addWithTTLCode 1 0, pc := 4 },
        { key := "a", parent := some 0, wake := 0, prog := goroutineCode "a" 0 0, pc := 4 }]
          : List (Thread String Int))[0]? = some c ∧
      c.parent = none ∧ c.key = "a" ∧
      ((({ key := "a", parent := some 0, wake := 0, prog := goroutineCode "a" 0 0, pc := 4 }
          : Thread String Int).lockDone = true) → c.finished = true) ∧
      ((({ key := "a", parent := some 0, wake := 0, prog := goroutineCode "a" 0 0, pc := 4 }
          : Thread String Int).removeDone = true) → c.addDone = true) :=
  removal_after_arming_add
    ({ Cache := { size := 2, items := [], hasOnEvict := true, evictLog := [] },
       schedule := [] } : LruWithTTL String Int)
    [FAction.call "a" 1 0, FAction.thread 0, FAction.thread 0, FAction.thread 0,
     FAction.thread 0, FAction.thread 1, FAction.thread 1, FAction.thread 1, FAction.thread 1]
    { lru := { Cache := { size := 2, items := [], hasOnEvict := true, evictLog := [("a", 1)] },
               schedule := [] },
      mutex := none,
      threads := [{ key := "a", parent := none, wake := 0, prog := addWithTTLCode 1 0, pc := 4 },
                  { key := "a", parent := some 0, wake := 0, prog := goroutineCode "a" 0 0,
                    pc := 4 }],
      now := 0 }
    1 0 { key := "a", parent := some 0, wake := 0, prog := goroutineCode "a" 0 0, pc := 4 }
    (by decide) (by decide) (by decide)

theorem set_length_append {α : Type} (pre post : List α) (t a : α) :
    (pre ++ t :: post).set pre.length a = pre ++ a :: post := by
  induction pre with
  | nil => rfl
  | cons x xs ih => simp [ih]

theorem Fine.step_thread_at (s : Fine K V) (pre post : List (Thread K V)) (t : Thread K V)
    (ins : Instr V) (hthreads : s.threads = pre ++ t :: post) (hw : t.wake ≤ s.now)
    (hf : t.prog[t.pc]? = some ins) :
    s.step (FAction.thread pre.length) = s.exec pre.length t ins ∧
    s.advance pre.length t = pre ++ { t with pc := t.pc + 1 } :: post := by
  have hget : s.threads[pre.length]? = some t := by
    rw [hthreads, List.getElem?_append_right (Nat.le_refl _), Nat.sub_self]
    simp
  have hw2 : ¬ s.now < t.wake := by omega
  constructor
  · simp only [Fine.step, hget, hw2, if_false, hf]
  · simp only [Fine.advance, hthreads]
    simp

/-- The four instructions of an `AddWithTTL` call, run without interruption on a
free mutex in the lock-level model, have the effect of the atomic `AddWithTTL`:
same cache and schedule map, mutex free again, and one new goroutine exactly when
the atomic call spawns one. -/
theorem Fine.call_uninterrupted (s : Fine K V) (key : K) (value : V) (ttl : Int)
    (hm : s.mutex = none) :
    ∃ s1 : Fine K V,
      s.run [FAction.call key value ttl, FAction.thread s.threads.length,
        FAction.thread s.threads.length, FAction.thread s.threads.length,
        FAction.thread s.threads.length] = some s1 ∧
      s1.lru = (AddWithTTL ({ lru := s.lru, timers := [], now := s.now } : Sys K V)
                  key value ttl).2.lru ∧
      s1.mutex = none ∧ s1.now = s.now ∧
      (s1.threads.drop (s.threads.length + 1)).map (fun g => (g.key, g.wake))
        = (AddWithTTL ({ lru := s.lru, timers := [], now := s.now } : Sys K V)
            key value ttl).2.timers.map (fun g => (g.key, g.wake)) := by
  have h0 : s.step (FAction.call key value ttl) = some
      ({ lru := s.lru
         mutex := s.mutex
         threads := s.threads ++
           [{ key := key, parent := none, wake := 0, prog := addWithTTLCode value ttl, pc := 0 }]
         now := s.now } : Fine K V) := rfl
  have h1 : Fine.step
      ({ lru := s.lru
         mutex := s.mutex
         threads := s.threads ++
           [{ key := key, parent := none, wake := 0, prog := addWithTTLCode value ttl, pc := 0 }]
         now := s.now } : Fine K V)
      (FAction.thread s.threads.length) = some
      ({ lru := s.lru
         mutex := some s.threads.length
         threads := s.threads ++
           [{ key := key, parent := none, wake := 0, prog := addWithTTLCode value ttl, pc := 1 }]
         now := s.now } : Fine K V) := by
    have e := Fine.step_thread_at
      ({ lru := s.lru
         mutex := s.mutex
         threads := s.threads ++
           [{ key := key, parent := none, wake := 0, prog := addWithTTLCode value ttl, pc := 0 }]
         now := s.now } : Fine K V)
      s.threads []
      { key := key, parent := none, wake := 0, prog := addWithTTLCode value ttl, pc := 0 }
      Instr.lock rfl (Nat.zero_le _) rfl
    rw [e.1]
    simp only [Fine.exec, Fine.advance, set_length_append, Nat.reduceAdd, hm]
  by_cases hc : key ∈ s.lru.schedule
  · have hc2 : s.lru.schedule.contains key = true := by simpa using hc
    have h2 : Fine.step
        ({ lru := s.lru
           mutex := some s.threads.length
           threads := s.threads ++
             [{ key := key, parent := none, wake := 0, prog := addWithTTLCode value ttl, pc := 1 }]
           now := s.now } : Fine K V)
        (FAction.thread s.threads.length) = some
        ({ lru := s.lru
           mutex := some s.threads.length
           threads := s.threads ++
             [{ key := key, parent := none, wake := 0, prog := addWithTTLCode value ttl, pc := 2 }]
           now := s.now } : Fine K V) := by
      have e := Fine.step_thread_at
        ({ lru := s.lru
           mutex := some s.threads.length
           threads := s.threads ++
             [{ key := key, parent := none, wake := 0, prog := addWithTTLCode value ttl, pc := 1 }]
           now := s.now } : Fine K V)
        s.threads []
        { key := key, parent := none, wake := 0, prog := addWithTTLCode value ttl, pc := 1 }
        (Instr.arm ttl) rfl (Nat.zero_le _) rfl
      rw [e.1]
      simp only [Fine.exec, Fine.advance, set_length_append, Nat.reduceAdd, hc2, if_true]
    have h3 : Fine.step
        ({ lru := s.lru
           mutex := some s.threads.length
           threads := s.threads ++
             [{ key := key, parent := none, wake := 0, prog := addWithTTLCode value ttl, pc := 2 }]
           now := s.now } : Fine K V)
        (FAction.thread s.threads.length) = some
        ({ lru := { Cache := (s.lru.Cache.Add key value).2, schedule := s.lru.schedule }
           mutex := some s.threads.length
           threads := s.threads ++
             [{ key := key, parent := none, wake := 0, prog := addWithTTLCode value ttl, pc := 3 }]
           now := s.now } : Fine K V) := by
      have e := Fine.step_thread_at
        ({ lru := s.lru
           mutex := some s.threads.length
           threads := s.threads ++
             [{ key := key, parent := none, wake := 0, prog := addWithTTLCode value ttl, pc := 2 }]
           now := s.now } : Fine K V)
        s.threads []
        { key := key, parent := none, wake := 0, prog := addWithTTLCode value ttl, pc := 2 }
        (Instr.cacheAdd value) rfl (Nat.zero_le _) rfl
      rw [e.1]
      simp only [Fine.exec, Fine.advance, set_length_append, Nat.reduceAdd]
    have h4 : Fine.step
        ({ lru := { Cache := (s.lru.Cache.Add key value).2, schedule := s.lru.schedule }
           mutex := some s.threads.length
           threads := s.threads ++
             [{ key := key, parent := none, wake := 0, prog := addWithTTLCode value ttl, pc := 3 }]
           now := s.now } : Fine K V)
        (FAction.thread s.threads.length) = some
        ({ lru := { Cache := (s.lru.Cache.Add key value).2, schedule := s.lru.schedule }
           mutex := none
           threads := s.threads ++
             [{ key := key, parent := none, wake := 0, prog := addWithTTLCode value ttl, pc := 4 }]
           now := s.now } : Fine K V) := by
      have e := Fine.step_thread_at
        ({ lru := { Cache := (s.lru.Cache.Add key value).2, schedule := s.lru.schedule }
           mutex := some s.threads.length
           threads := s.threads ++
             [{ key := key, parent := none, wake := 0, prog := addWithTTLCode value ttl, pc := 3 }]
           now := s.now } : Fine K V)
        s.threads []
        { key := key, parent := none, wake := 0, prog := addWithTTLCode value ttl, pc := 3 }
        Instr.unlock rfl (Nat.zero_le _) rfl
      rw [e.1]
      simp only [Fine.exec, Fine.advance, set_length_append, Nat.reduceAdd, if_true]
    have hrun : s.run [FAction.call key value ttl, FAction.thread s.threads.length,
        FAction.thread s.threads.length, FAction.thread s.threads.length,
        FAction.thread s.threads.length] = some
        ({ lru := { Cache := (s.lru.Cache.Add key value).2, schedule := s.lru.schedule }
           mutex := none
           threads := s.threads ++
             [{ key := key, parent := none, wake := 0, prog := addWithTTLCode value ttl, pc := 4 }]
           now := s.now } : Fine K V) := by
      simp only [Fine.run, h0, h1, h2, h3, h4, Option.some_bind]
    refine ⟨_, hrun, ?_, rfl, rfl, ?_⟩
    · simp [AddWithTTL, arm, hc]
    · simp [AddWithTTL, arm, hc]
  · have hc2 : ¬ s.lru.schedule.contains key = true := by simpa using hc
    have h2 : Fine.step
        ({ lru := s.lru
           mutex := some s.threads.length
           threads := s.threads ++
             [{ key := key, parent := none, wake := 0, prog := addWithTTLCode value ttl, pc := 1 }]
           now := s.now } : Fine K V)
        (FAction.thread s.threads.length) = some
        ({ lru := { Cache := s.lru.Cache, schedule := key :: s.lru.schedule }
           mutex := some s.threads.length
           threads := s.threads ++
             { key := key, parent := none, wake := 0, prog := addWithTTLCode value ttl, pc := 2 } ::
             [{ key := key, parent := some s.threads.length, wake := s.now + ttl.toNat, prog := goroutineCode key s.now ttl, pc := 0 }]
           now := s.now } : Fine K V) := by
      have e := Fine.step_thread_at
        ({ lru := s.lru
           mutex := some s.threads.length
           threads := s.threads ++
             [{ key := key, parent := none, wake := 0, prog := addWithTTLCode value ttl, pc := 1 }]
           now := s.now } : Fine K V)
        s.threads []
        { key := key, parent := none, wake := 0, prog := addWithTTLCode value ttl, pc := 1 }
        (Instr.arm ttl) rfl (Nat.zero_le _) rfl
      rw [e.1]
      simp only [Fine.exec, Fine.advance, set_length_append, Nat.reduceAdd, hc2, Bool.false_eq_true, if_false, List.append_assoc,
        List.singleton_append]
    have h3 : Fine.step
        ({ lru := { Cache := s.lru.Cache, schedule := key :: s.lru.schedule }
           mutex := some s.threads.length
           threads := s.threads ++
             { key := key, parent := none, wake := 0, prog := addWithTTLCode value ttl, pc := 2 } ::
             [{ key := key, parent := some s.threads.length, wake := s.now + ttl.toNat, prog := goroutineCode key s.now ttl, pc := 0 }]
           now := s.now } : Fine K V)
        (FAction.thread s.threads.length) = some
        ({ lru := { Cache := (s.lru.Cache.Add key value).2, schedule := key :: s.lru.schedule }
           mutex := some s.threads.length
           threads := s.threads ++
             { key := key, parent := none, wake := 0, prog := addWithTTLCode value ttl, pc := 3 } ::
             [{ key := key, parent := some s.threads.length, wake := s.now + ttl.toNat, prog := goroutineCode key s.now ttl, pc := 0 }]
           now := s.now } : Fine K V) := by
      have e := Fine.step_thread_at
        ({ lru := { Cache := s.lru.Cache, schedule := key :: s.lru.schedule }
           mutex := some s.threads.length
           threads := s.threads ++
             { key := key, parent := none, wake := 0, prog := addWithTTLCode value ttl, pc := 2 } ::
             [{ key := key, parent := some s.threads.length, wake := s.now + ttl.toNat, prog := goroutineCode key s.now ttl, pc := 0 }]
           now := s.now } : Fine K V)
        s.threads [{ key := key, parent := some s.threads.length, wake := s.now + ttl.toNat, prog := goroutineCode key s.now ttl, pc := 0 }]
        { key := key, parent := none, wake := 0, prog := addWithTTLCode value ttl, pc := 2 }
        (Instr.cacheAdd value) rfl (Nat.zero_le _) rfl
      rw [e.1]
      simp only [Fine.exec, Fine.advance, set_length_append, Nat.reduceAdd]
    have h4 : Fine.step
        ({ lru := { Cache := (s.lru.Cache.Add key value).2, schedule := key :: s.lru.schedule }
           mutex := some s.threads.length
           threads := s.threads ++
             { key := key, parent := none, wake := 0, prog := addWithTTLCode value ttl, pc := 3 } ::
             [{ key := key, parent := some s.threads.length, wake := s.now + ttl.toNat, prog := goroutineCode key s.now ttl, pc := 0 }]
           now := s.now } : Fine K V)
        (FAction.thread s.threads.length) = some
        ({ lru := { Cache := (s.lru.Cache.Add key value).2, schedule := key :: s.lru.schedule }
           mutex := none
           threads := s.threads ++
             { key := key, parent := none, wake := 0, prog := addWithTTLCode value ttl, pc := 4 } ::
             [{ key := key, parent := some s.threads.length, wake := s.now + ttl.toNat, prog := goroutineCode key s.now ttl, pc := 0 }]
           now := s.now } : Fine K V) := by
      have e := Fine.step_thread_at
        ({ lru := { Cache := (s.lru.Cache.Add key value).2, schedule := key :: s.lru.schedule }
           mutex := some s.threads.length
           threads := s.threads ++
             { key := key, parent := none, wake := 0, prog := addWithTTLCode value ttl, pc := 3 } ::
             [{ key := key, parent := some s.threads.length, wake := s.now + ttl.toNat, prog := goroutineCode key s.now ttl, pc := 0 }]
           now := s.now } : Fine K V)
        s.threads [{ key := key, parent := some s.threads.length, wake := s.now + ttl.toNat, prog := goroutineCode key s.now ttl, pc := 0 }]
        { key := key, parent := none, wake := 0, prog := addWithTTLCode value ttl, pc := 3 }
        Instr.unlock rfl (Nat.zero_le _) rfl
      rw [e.1]
      simp only [Fine.exec, Fine.advance, set_length_append, Nat.reduceAdd, if_true]
    have hrun : s.run [FAction.call key value ttl, FAction.thread s.threads.length,
        FAction.thread s.threads.length, FAction.thread s.threads.length,
        FAction.thread s.threads.length] = some
        ({ lru := { Cache := (s.lru.Cache.Add key value).2, schedule := key :: s.lru.schedule }
           mutex := none
           threads := s.threads ++
             { key := key, parent := none, wake := 0, prog := addWithTTLCode value ttl, pc := 4 } ::
             [{ key := key, parent := some s.threads.length, wake := s.now + ttl.toNat, prog := goroutineCode key s.now ttl, pc := 0 }]
           now := s.now } : Fine K V) := by
      simp only [Fine.run, h0, h1, h2, h3, h4, Option.some_bind]
    refine ⟨_, hrun, ?_, rfl, rfl, ?_⟩
    · simp [AddWithTTL, arm, hc]
    · simp [AddWithTTL, arm, hc, expiryTimer]

end LockLevel
